import Mathlib

/-!
Verification development for the BRK_CNC_JSONScanner repository.

The JavaScript sources (Scanner.js, Analyzer.js, Executor.js, Results.js,
RuleEngine.js, TempFileManager.js) are shallowly embedded below: pure
functions become Lean functions, filesystem state becomes explicit state
passing, JavaScript exceptions become `Except` values, and `null`/`undefined`
become `Option`.  The `Project.js` data-model file is not part of the
available sources; the few `Project` methods the embedded components call
(`sanitizeJsonContent`, `isAlreadyProcessed`, result/fixed path accessors)
are modelled from the specification and marked as such in their doc comments.
-/

namespace BRK

/-! ## Character classes and substring search -/

def isDigitChar (c : Char) : Bool := '0' ≤ c && c ≤ '9'

def isUpperAZ (c : Char) : Bool := 'A' ≤ c && c ≤ 'Z'

/-- Embedding of JavaScript `String.prototype.endsWith` (on character lists,
so that concrete instances evaluate). -/
def strEndsWith (s suffix : String) : Bool := suffix.data.isSuffixOf s.data

/-- Embedding of JavaScript `String.prototype.includes`: does `needle` occur
as a contiguous substring of `hay`? -/
def containsSub (needle : List Char) : List Char → Bool
  | [] => needle.isEmpty
  | c :: rest => needle.isPrefixOf (c :: rest) || containsSub needle rest

theorem containsSub_mem {needle hay : List Char} (h : containsSub needle hay = true)
    {c : Char} (hc : c ∈ needle) : c ∈ hay := by
  induction hay with
  | nil =>
    simp [containsSub, List.isEmpty_iff] at h
    subst h; cases hc
  | cons x xs ih =>
    simp only [containsSub, Bool.or_eq_true] at h
    rcases h with h | h
    · have hpre : needle <+: x :: xs := by
        exact (List.isPrefixOf_iff_prefix).mp h
      exact hpre.subset hc
    · exact List.mem_cons_of_mem x (ih h)

theorem containsSub_eq_false_of_not_mem {needle hay : List Char} {c : Char}
    (hc : c ∈ needle) (hnot : c ∉ hay) : containsSub needle hay = false := by
  cases h : containsSub needle hay with
  | false => rfl
  | true => exact absurd (containsSub_mem h hc) hnot

/-! ## Scanner.extractProjectInfoFromPath (src/Scanner.js lines 264-284)

The source matches the file name against the regular expression
`^(W\d4[A-Z]2\d2,)([A-Z]?)\.json$` (quantifier braces elided here).
Because the character classes of adjacent regex pieces are disjoint
(a digit is never an uppercase letter and never `'.'`), the regex engine's
greedy matching is equivalent to the maximal-munch scan implemented below:
take the leading `'W'`, exactly four digits, exactly two uppercase letters,
a maximal run of at least two digits, an optional uppercase letter, and the
exact suffix `".json"`. -/

structure FileInfo where
  fullPath : String
  fileName : String
  projectBase : String
  projectName : String
  position : String
  directory : String
deriving Repr, DecidableEq

/-- Core matcher for the source pattern: returns the characters of capture
group 1 (`projectBase`) and the optional capture group 2 character. -/
def wPatternParse (name : String) : Option (List Char × Option Char) :=
  match name.data with
  | [] => none
  | c0 :: rest =>
    if c0 = 'W' then
      let d1 := rest.takeWhile isDigitChar
      let r1 := rest.dropWhile isDigitChar
      let u := r1.takeWhile isUpperAZ
      let r2 := r1.dropWhile isUpperAZ
      let d2 := r2.takeWhile isDigitChar
      let r3 := r2.dropWhile isDigitChar
      if d1.length = 4 ∧ u.length = 2 ∧ 2 ≤ d2.length then
        match r3 with
        | c :: r4 =>
          if isUpperAZ c then
            if r4 = ".json".data then some ('W' :: (d1 ++ u ++ d2), some c) else none
          else
            if c :: r4 = ".json".data then some ('W' :: (d1 ++ u ++ d2), none) else none
        | [] => none
      else none
    else none

/-- Embedding of `Scanner.extractProjectInfoFromPath`.  On a regex match the
source builds `projectBase` from group 1, `position` from group 2 (the empty
string is falsy in JavaScript, so a missing group 2 defaults to `"A"`), and
`projectName = projectBase + position`.  `directory` is `path.dirname`,
supplied here by the caller alongside the full path. -/
def extractProjectInfoFromPath (fullPath directory fileName : String) : Option FileInfo :=
  match wPatternParse fileName with
  | some (baseChars, posChar) =>
    let projectBase : String := ⟨baseChars⟩
    let position : String := match posChar with
      | some c => ⟨[c]⟩
      | none => "A"
    some { fullPath := fullPath, fileName := fileName, projectBase := projectBase,
           projectName := projectBase ++ position, position := position,
           directory := directory }
  | none => none

/-- One step of `Scanner.groupJsonFilesByProject`: `Map.has`/`Map.get().push`
on the insertion-ordered association list. -/
def addToGroups (groups : List (String × List FileInfo)) (f : FileInfo) :
    List (String × List FileInfo) :=
  if groups.any (fun g => g.1 = f.projectName) then
    groups.map (fun g => if g.1 = f.projectName then (g.1, g.2 ++ [f]) else g)
  else groups ++ [(f.projectName, [f])]

/-- Embedding of `Scanner.groupJsonFilesByProject`: a `Map` keyed by
`projectName` in insertion order, each key holding the files in order. -/
def groupJsonFilesByProject (jsonFiles : List FileInfo) : List (String × List FileInfo) :=
  jsonFiles.foldl addToGroups []

/-! Spec-side patterns for claim C5.  `claimPattern` transcribes the claim's
own wording — `<4 digits><2 letters><2+ digits><optional trailing letter>.json`
— as an existence of a decomposition; `amendedPattern` is the same with the
leading `'W'` the source regex additionally requires. -/

def claimPattern (name : String) : Prop :=
  ∃ d l d2 p : List Char,
    name.data = d ++ l ++ d2 ++ p ++ ".json".data ∧
    d.length = 4 ∧ (∀ c ∈ d, isDigitChar c = true) ∧
    l.length = 2 ∧ (∀ c ∈ l, isUpperAZ c = true) ∧
    2 ≤ d2.length ∧ (∀ c ∈ d2, isDigitChar c = true) ∧
    (p = [] ∨ ∃ c, p = [c] ∧ isUpperAZ c = true)

def amendedPattern (name : String) : Prop :=
  ∃ d l d2 p : List Char,
    name.data = 'W' :: (d ++ l ++ d2 ++ p ++ ".json".data) ∧
    d.length = 4 ∧ (∀ c ∈ d, isDigitChar c = true) ∧
    l.length = 2 ∧ (∀ c ∈ l, isUpperAZ c = true) ∧
    2 ≤ d2.length ∧ (∀ c ∈ d2, isDigitChar c = true) ∧
    (p = [] ∨ ∃ c, p = [c] ∧ isUpperAZ c = true)

theorem not_upper_of_digit {c : Char} (h : isDigitChar c = true) : isUpperAZ c = false := by
  simp only [isDigitChar, Bool.and_eq_true, decide_eq_true_eq] at h
  simp only [isUpperAZ, Bool.and_eq_false_iff]
  left
  simp only [decide_eq_false_iff_not, not_le]
  calc c ≤ '9' := h.2
    _ < 'A' := by decide

theorem not_digit_of_upper {c : Char} (h : isUpperAZ c = true) : isDigitChar c = false := by
  simp only [isUpperAZ, Bool.and_eq_true, decide_eq_true_eq] at h
  simp only [isDigitChar, Bool.and_eq_false_iff]
  right
  simp only [decide_eq_false_iff_not, not_le]
  calc '9' < 'A' := by decide
    _ ≤ c := h.1

theorem takeWhile_app_of_all {p : Char → Bool} {l1 l2 : List Char}
    (h : ∀ c ∈ l1, p c = true) :
    (l1 ++ l2).takeWhile p = l1 ++ l2.takeWhile p := by
  induction l1 with
  | nil => simp
  | cons x xs ih =>
    have hx : p x = true := h x (List.mem_cons_self x xs)
    simp [List.takeWhile, hx, ih (fun c hc => h c (List.mem_cons_of_mem x hc))]

theorem dropWhile_app_of_all {p : Char → Bool} {l1 l2 : List Char}
    (h : ∀ c ∈ l1, p c = true) :
    (l1 ++ l2).dropWhile p = l2.dropWhile p := by
  induction l1 with
  | nil => simp
  | cons x xs ih =>
    have hx : p x = true := h x (List.mem_cons_self x xs)
    simp [List.dropWhile, hx, ih (fun c hc => h c (List.mem_cons_of_mem x hc))]

theorem takeWhile_eq_nil_of_head {p : Char → Bool} {c : Char} {l : List Char}
    (h : p c = false) : (c :: l).takeWhile p = [] := by
  simp [List.takeWhile, h]

theorem dropWhile_eq_self_of_head {p : Char → Bool} {c : Char} {l : List Char}
    (h : p c = false) : (c :: l).dropWhile p = c :: l := by
  simp [List.dropWhile, h]

/-- Soundness of the matcher: a successful parse exhibits the amended
decomposition of the file name. -/
theorem wPatternParse_sound {name : String} {base : List Char} {posc : Option Char}
    (h : wPatternParse name = some (base, posc)) :
    name.data = base ++ posc.elim ([] : List Char) (fun c => [c]) ++ ".json".data ∧
    (∃ d l d2 : List Char, base = 'W' :: (d ++ l ++ d2) ∧
      d.length = 4 ∧ (∀ c ∈ d, isDigitChar c = true) ∧
      l.length = 2 ∧ (∀ c ∈ l, isUpperAZ c = true) ∧
      2 ≤ d2.length ∧ (∀ c ∈ d2, isDigitChar c = true)) ∧
    (posc = none ∨ ∃ c, posc = some c ∧ isUpperAZ c = true) := by
  unfold wPatternParse at h
  rcases hnd : name.data with _ | ⟨c0, rest⟩ <;> rw [hnd] at h <;> dsimp only at h
  · simp at h
  · by_cases hc0 : c0 = 'W'
    · rw [if_pos hc0] at h
      subst hc0
      set d1 := rest.takeWhile isDigitChar with hd1
      set r1 := rest.dropWhile isDigitChar with hr1
      set u := r1.takeWhile isUpperAZ with hu
      set r2 := r1.dropWhile isUpperAZ with hr2
      set d2 := r2.takeWhile isDigitChar with hd2
      set r3 := r2.dropWhile isDigitChar with hr3
      have hrest : rest = d1 ++ r1 := (List.takeWhile_append_dropWhile _ _).symm
      have hr1eq : r1 = u ++ r2 := (List.takeWhile_append_dropWhile _ _).symm
      have hr2eq : r2 = d2 ++ r3 := (List.takeWhile_append_dropWhile _ _).symm
      have hd1all : ∀ c ∈ d1, isDigitChar c = true := fun c hc => List.mem_takeWhile_imp hc
      have huall : ∀ c ∈ u, isUpperAZ c = true := fun c hc => List.mem_takeWhile_imp hc
      have hd2all : ∀ c ∈ d2, isDigitChar c = true := fun c hc => List.mem_takeWhile_imp hc
      split at h
      on_goal 2 => simp at h
      rename_i hlen
      obtain ⟨hl1, hl2, hl3⟩ := hlen
      rcases hr3cases : r3 with _ | ⟨c, r4⟩ <;> rw [hr3cases] at h <;> dsimp only at h
      · simp at h
      · by_cases hcup : isUpperAZ c = true
        · rw [if_pos hcup] at h
          by_cases hr4 : r4 = ".json".data
          · rw [if_pos hr4] at h
            simp only [Option.some.injEq, Prod.mk.injEq] at h
            obtain ⟨hbase, hposc⟩ := h
            subst hbase
            refine ⟨?_, ⟨d1, u, d2, rfl, hl1, hd1all, hl2, huall, hl3, hd2all⟩, ?_⟩
            · rw [hrest, hr1eq, hr2eq, hr3cases, hr4, ← hposc]
              simp [List.append_assoc]
            · exact Or.inr ⟨c, hposc.symm, hcup⟩
          · rw [if_neg hr4] at h; simp at h
        · rw [if_neg hcup] at h
          by_cases hr34 : c :: r4 = ".json".data
          · rw [if_pos hr34] at h
            simp only [Option.some.injEq, Prod.mk.injEq] at h
            obtain ⟨hbase, hposc⟩ := h
            subst hbase
            refine ⟨?_, ⟨d1, u, d2, rfl, hl1, hd1all, hl2, huall, hl3, hd2all⟩, Or.inl hposc.symm⟩
            rw [hrest, hr1eq, hr2eq, hr3cases, hr34, ← hposc]
            simp [List.append_assoc]
          · rw [if_neg hr34] at h; simp at h
    · rw [if_neg hc0] at h; simp at h

/-- Completeness of the matcher: any amended decomposition is found by the
maximal-munch scan (the disjoint character classes make the match unique). -/
theorem wPatternParse_complete {name : String} {d l d2 p : List Char}
    (hname : name.data = 'W' :: (d ++ l ++ d2 ++ p ++ ".json".data))
    (hd : d.length = 4) (hdall : ∀ c ∈ d, isDigitChar c = true)
    (hl : l.length = 2) (hlall : ∀ c ∈ l, isUpperAZ c = true)
    (hd2 : 2 ≤ d2.length) (hd2all : ∀ c ∈ d2, isDigitChar c = true)
    (hp : p = [] ∨ ∃ c, p = [c] ∧ isUpperAZ c = true) :
    wPatternParse name = some ('W' :: (d ++ l ++ d2), p.head?) := by
  obtain ⟨a, b, hlab⟩ : ∃ a b, l = [a, b] := by
    rcases l with _ | ⟨a, _ | ⟨b, _ | _⟩⟩ <;> simp_all
  obtain ⟨x, xs, hd2cons⟩ : ∃ x xs, d2 = x :: xs := by
    rcases d2 with _ | ⟨x, xs⟩
    · simp at hd2
    · exact ⟨x, xs, rfl⟩
  have hheadl : isDigitChar a = false := by
    have : isUpperAZ a = true := hlall a (by simp [hlab])
    exact not_digit_of_upper this
  have hheadd2 : isUpperAZ x = false := by
    have : isDigitChar x = true := hd2all x (by simp [hd2cons])
    exact not_upper_of_digit this
  have hjs : ".json".data = '.' :: "json".data := rfl
  have hjstk : (".json".data).takeWhile isDigitChar = [] := by decide
  have hjsdr : (".json".data).dropWhile isDigitChar = ".json".data := by decide
  have hptk : (p ++ ".json".data).takeWhile isDigitChar = [] := by
    rcases hp with hpe | ⟨c, hpc, hcu⟩
    · subst hpe; simpa using hjstk
    · subst hpc
      rw [List.cons_append]
      exact takeWhile_eq_nil_of_head (not_digit_of_upper hcu)
  have hpdr : (p ++ ".json".data).dropWhile isDigitChar = p ++ ".json".data := by
    rcases hp with hpe | ⟨c, hpc, hcu⟩
    · subst hpe; simpa using hjsdr
    · subst hpc
      rw [List.cons_append]
      exact dropWhile_eq_self_of_head (not_digit_of_upper hcu)
  have hrest : 'W' :: (d ++ l ++ d2 ++ p ++ ".json".data) =
      'W' :: (d ++ (l ++ (d2 ++ (p ++ ".json".data)))) := by simp [List.append_assoc]
  unfold wPatternParse
  rw [hname, hrest]
  dsimp only
  rw [if_pos rfl]
  have htk1 : (d ++ (l ++ (d2 ++ (p ++ ".json".data)))).takeWhile isDigitChar = d := by
    rw [takeWhile_app_of_all hdall, hlab, List.cons_append,
      takeWhile_eq_nil_of_head hheadl, List.append_nil]
  have hdr1 : (d ++ (l ++ (d2 ++ (p ++ ".json".data)))).dropWhile isDigitChar =
      l ++ (d2 ++ (p ++ ".json".data)) := by
    rw [dropWhile_app_of_all hdall, hlab, List.cons_append,
      dropWhile_eq_self_of_head hheadl, ← List.cons_append]
  have htk2 : (l ++ (d2 ++ (p ++ ".json".data))).takeWhile isUpperAZ = l := by
    rw [takeWhile_app_of_all hlall, hd2cons, List.cons_append,
      takeWhile_eq_nil_of_head hheadd2, List.append_nil]
  have hdr2 : (l ++ (d2 ++ (p ++ ".json".data))).dropWhile isUpperAZ =
      d2 ++ (p ++ ".json".data) := by
    rw [dropWhile_app_of_all hlall, hd2cons, List.cons_append,
      dropWhile_eq_self_of_head hheadd2, ← List.cons_append]
  have htk3 : (d2 ++ (p ++ ".json".data)).takeWhile isDigitChar = d2 := by
    rw [takeWhile_app_of_all hd2all, hptk, List.append_nil]
  have hdr3 : (d2 ++ (p ++ ".json".data)).dropWhile isDigitChar = p ++ ".json".data := by
    rw [dropWhile_app_of_all hd2all, hpdr]
  simp only [htk1, hdr1, htk2, hdr2, htk3, hdr3]
  rw [if_pos ⟨hd, hl, hd2⟩]
  rcases hp with hpe | ⟨c, hpc, hcu⟩
  · subst hpe
    simp
    decide
  · subst hpc
    simp
    exact hcu

/-- Grouping invariant: every file stored under a key of the grouping map has
that key as its `projectName`. -/
theorem addToGroups_invariant (files : List FileInfo) (init : List (String × List FileInfo))
    (hinit : ∀ g ∈ init, ∀ f ∈ g.2, g.1 = f.projectName) :
    ∀ g ∈ files.foldl addToGroups init, ∀ f ∈ g.2, g.1 = f.projectName := by
  induction files generalizing init with
  | nil => exact hinit
  | cons x xs ih =>
    refine ih (addToGroups init x) ?_
    intro g hg f hf
    unfold addToGroups at hg
    split at hg
    · obtain ⟨g0, hg0, hmap⟩ := List.mem_map.mp hg
      by_cases hcond : g0.1 = x.projectName
      · rw [if_pos hcond] at hmap
        subst hmap
        simp only at hf
        rcases List.mem_append.mp hf with hfin | hfx
        · exact hinit g0 hg0 f hfin
        · simp at hfx
          subst hfx
          exact hcond
      · rw [if_neg hcond] at hmap
        subst hmap
        exact hinit g0 hg0 f hf
    · rcases List.mem_append.mp hg with hgin | hgnew
      · exact hinit g hgin f hf
      · simp at hgnew
        subst hgnew
        simp at hf
        subst hf
        rfl

/-- C5 (counterexample): the claim says extraction succeeds exactly when the
file name matches `<4 digits><2 letters><2+ digits><optional trailing letter>.json`.
The name `1234AB01A.json` matches that pattern, yet
`Scanner.extractProjectInfoFromPath` rejects it: the source regular expression
additionally requires a leading `'W'`. -/
theorem C5_counterexample :
    claimPattern "1234AB01A.json" ∧
    extractProjectInfoFromPath "/data/M1/1234AB01A.json" "/data/M1" "1234AB01A.json" = none := by
  constructor
  · exact ⟨['1', '2', '3', '4'], ['A', 'B'], ['0', '1'], ['A'], by decide, by decide,
      by decide, by decide, by decide, by decide, by decide, Or.inr ⟨'A', rfl, by decide⟩⟩
  · rfl

/-- C5 (amended): project-key extraction succeeds exactly when the file name
matches `W<4 digits><2 uppercase letters><2+ digits><optional trailing
uppercase letter>.json`; it yields `projectBase` (the part before the optional
trailing letter) and `position` (the trailing letter, defaulting to `"A"` when
absent), the grouping key `projectName` equals `projectBase ++ position`, and
the grouping map keys every file by its `projectName`; in particular
`W1234AB01A.json` yields `projectBase = "W1234AB01"` and `position = "A"`,
and `W1234AB01.json` yields `position = "A"`. -/
theorem C5_extraction_amended :
    (∀ fp dir name, (extractProjectInfoFromPath fp dir name).isSome = true ↔ amendedPattern name) ∧
    (∀ fp dir name info, extractProjectInfoFromPath fp dir name = some info →
      info.projectName = info.projectBase ++ info.position ∧
      ((name = info.projectBase ++ info.position ++ ".json" ∧ info.position.length = 1) ∨
        (name = info.projectBase ++ ".json" ∧ info.position = "A"))) ∧
    extractProjectInfoFromPath "/d/W1234AB01A.json" "/d" "W1234AB01A.json" =
      some { fullPath := "/d/W1234AB01A.json", fileName := "W1234AB01A.json",
             projectBase := "W1234AB01", projectName := "W1234AB01A", position := "A",
             directory := "/d" } ∧
    extractProjectInfoFromPath "/d/W1234AB01.json" "/d" "W1234AB01.json" =
      some { fullPath := "/d/W1234AB01.json", fileName := "W1234AB01.json",
             projectBase := "W1234AB01", projectName := "W1234AB01A", position := "A",
             directory := "/d" } ∧
    (∀ files, ∀ g ∈ groupJsonFilesByProject files, ∀ f ∈ g.2, g.1 = f.projectName) := by
  refine ⟨?_, ?_, by decide, by decide, ?_⟩
  · intro fp dir name
    constructor
    · intro h
      rcases hp : wPatternParse name with _ | ⟨base, posc⟩
      · unfold extractProjectInfoFromPath at h
        rw [hp] at h
        simp at h
      · obtain ⟨hdata, ⟨d, l, d2, hbase, hd, hdall, hl, hlall, hd2, hd2all⟩, hpos⟩ :=
          wPatternParse_sound hp
        refine ⟨d, l, d2, posc.elim [] (fun c => [c]), ?_, hd, hdall, hl, hlall, hd2, hd2all, ?_⟩
        · rw [hdata, hbase]
          simp [List.append_assoc]
        · rcases hpos with hn | ⟨c, hc, hcu⟩
          · subst hn; exact Or.inl rfl
          · subst hc; exact Or.inr ⟨c, rfl, hcu⟩
    · rintro ⟨d, l, d2, p, hname, hd, hdall, hl, hlall, hd2, hd2all, hpp⟩
      have hparse := wPatternParse_complete (by rw [hname]) hd hdall hl hlall hd2 hd2all hpp
      unfold extractProjectInfoFromPath
      rw [hparse]
      simp
  · intro fp dir name info hinfo
    rcases hp : wPatternParse name with _ | ⟨base, posc⟩ <;>
      unfold extractProjectInfoFromPath at hinfo <;> rw [hp] at hinfo
    · simp at hinfo
    · obtain ⟨hdata, _, hpos⟩ := wPatternParse_sound hp
      simp only [Option.some.injEq] at hinfo
      subst hinfo
      rcases hpos with hn | ⟨c, hc, _⟩
      · subst hn
        refine ⟨rfl, Or.inr ⟨?_, rfl⟩⟩
        apply String.ext
        simp only [String.data_append, hdata]
        simp
      · subst hc
        refine ⟨rfl, Or.inl ⟨?_, rfl⟩⟩
        apply String.ext
        simp only [String.data_append, hdata]
        simp
  · intro files
    exact addToGroups_invariant files [] (by intro g hg; cases hg)

/-- Closed witness for `C5_extraction_amended`: instantiates the amended claim
at `W1234AB01A.json`, discharging its hypothesis by evaluation. -/
theorem C5_extraction_amended_witness :
    ({ fullPath := "/d/W1234AB01A.json", fileName := "W1234AB01A.json",
       projectBase := "W1234AB01", projectName := "W1234AB01A", position := "A",
       directory := "/d" } : FileInfo).projectName = "W1234AB01" ++ "A" :=
  (C5_extraction_amended.2.1 "/d/W1234AB01A.json" "/d" "W1234AB01A.json"
    { fullPath := "/d/W1234AB01A.json", fileName := "W1234AB01A.json",
      projectBase := "W1234AB01", projectName := "W1234AB01A", position := "A",
      directory := "/d" } (by decide)).1

/-! ## Scanner.findAllJsonFiles (src/Scanner.js lines 223-256)

The directory tree is a mutual inductive value; `scanDirectory` is the
source's depth-first, in-order walk.  A file is pushed onto the result only
when its name ends in `".json"`, does not contain `"BRK_fixed"` or
`"BRK_result"` (the generated-file skip), and survives
`extractProjectInfoFromPath`. -/

mutual
inductive FsEntry where
  | file (name : String)
  | dir (name : String) (children : FsEntryList)
inductive FsEntryList where
  | nil
  | cons (e : FsEntry) (rest : FsEntryList)
end

mutual
def scanEntry (dirPath : String) : FsEntry → List FileInfo
  | .file name =>
    if strEndsWith name ".json" then
      if containsSub "BRK_fixed".data name.data || containsSub "BRK_result".data name.data then
        []
      else
        match extractProjectInfoFromPath (dirPath ++ "/" ++ name) dirPath name with
        | some fi => [fi]
        | none => []
    else []
  | .dir name children => scanEntries (dirPath ++ "/" ++ name) children

def scanEntries (dirPath : String) : FsEntryList → List FileInfo
  | .nil => []
  | .cons e rest => scanEntry dirPath e ++ scanEntries dirPath rest
end

/-- Embedding of `Scanner.findAllJsonFiles`. -/
def findAllJsonFiles (rootPath : String) (root : FsEntryList) : List FileInfo :=
  scanEntries rootPath root

theorem no_underscore_of_parse {name : String} {base : List Char} {posc : Option Char}
    (h : wPatternParse name = some (base, posc)) : '_' ∉ name.data := by
  obtain ⟨hdata, ⟨d, l, d2, hbase, _, hdall, _, hlall, _, hd2all⟩, hpos⟩ := wPatternParse_sound h
  intro hmem
  rw [hdata, hbase] at hmem
  simp only [List.cons_append, List.mem_cons, List.mem_append] at hmem
  have hdF : '_' ∉ d := fun hx => absurd (hdall _ hx) (by decide)
  have hlF : '_' ∉ l := fun hx => absurd (hlall _ hx) (by decide)
  have hd2F : '_' ∉ d2 := fun hx => absurd (hd2all _ hx) (by decide)
  have hpF : '_' ∉ posc.elim ([] : List Char) (fun c => [c]) := by
    rcases hpos with hn | ⟨c, hc, hcu⟩
    · subst hn; simp
    · subst hc
      intro hx
      simp at hx
      subst hx
      exact absurd hcu (by decide)
  have hjF : '_' ∉ ".json".data := by decide
  have hwF : ('_' : Char) ≠ 'W' := by decide
  tauto

theorem extract_parse_isSome {fp dir name : String} {fi : FileInfo}
    (h : extractProjectInfoFromPath fp dir name = some fi) :
    ∃ base posc, wPatternParse fi.fileName = some (base, posc) := by
  rcases hp : wPatternParse name with _ | ⟨base, posc⟩ <;>
    unfold extractProjectInfoFromPath at h <;> rw [hp] at h
  · simp at h
  · simp only [Option.some.injEq] at h
    subst h
    exact ⟨base, posc, hp⟩

mutual
theorem scanEntry_parses (dirPath : String) (e : FsEntry) :
    ∀ fi ∈ scanEntry dirPath e, ∃ base posc, wPatternParse fi.fileName = some (base, posc) :=
  match e with
  | .file name => by
    intro fi hfi
    simp only [scanEntry] at hfi
    split at hfi
    · split at hfi
      · cases hfi
      · rcases hex : extractProjectInfoFromPath (dirPath ++ "/" ++ name) dirPath name with
          _ | fi'
        · rw [hex] at hfi; cases hfi
        · rw [hex] at hfi
          simp at hfi
          subst hfi
          exact extract_parse_isSome hex
    · cases hfi
  | .dir name children => fun fi hfi =>
    scanEntries_parses (dirPath ++ "/" ++ name) children fi hfi

theorem scanEntries_parses (dirPath : String) (es : FsEntryList) :
    ∀ fi ∈ scanEntries dirPath es, ∃ base posc, wPatternParse fi.fileName = some (base, posc) :=
  match es with
  | .nil => by intro fi hfi; cases hfi
  | .cons e rest => by
    intro fi hfi
    rcases List.mem_append.mp hfi with h | h
    · exact scanEntry_parses dirPath e fi h
    · exact scanEntries_parses dirPath rest fi h
end

/-- C7: no file yielded by the scanner's recursive walk has a name containing
the reserved prefix `"BRK_"` or the suffixes `"_fixed"` / `"_result"`:
previously written fixed/result artifacts are never re-discovered as source
files. -/
theorem C7_generated_exclusion (rootPath : String) (root : FsEntryList) :
    ∀ fi ∈ findAllJsonFiles rootPath root,
      containsSub "_fixed".data fi.fileName.data = false ∧
      containsSub "_result".data fi.fileName.data = false ∧
      containsSub "BRK_".data fi.fileName.data = false := by
  intro fi hfi
  obtain ⟨base, posc, hp⟩ := scanEntries_parses rootPath root fi hfi
  have hnu : '_' ∉ fi.fileName.data := no_underscore_of_parse hp
  exact ⟨containsSub_eq_false_of_not_mem (by decide) hnu,
    containsSub_eq_false_of_not_mem (by decide) hnu,
    containsSub_eq_false_of_not_mem (by decide) hnu⟩

/-- Closed witness for `C7_generated_exclusion`: evaluates the walk on a
one-machine tree containing one valid descriptor. -/
theorem C7_generated_exclusion_witness :
    containsSub "_fixed".data ("W1234AB01A.json".data) = false ∧
    containsSub "_result".data ("W1234AB01A.json".data) = false ∧
    containsSub "BRK_".data ("W1234AB01A.json".data) = false := by
  have h := C7_generated_exclusion "/data"
    (.cons (.dir "M1" (.cons (.file "W1234AB01A.json") .nil)) .nil)
  have hm := h { fullPath := "/data/M1/W1234AB01A.json", fileName := "W1234AB01A.json",
                 projectBase := "W1234AB01", projectName := "W1234AB01A", position := "A",
                 directory := "/data/M1" }
    (by simp only [findAllJsonFiles, scanEntries, scanEntry]; decide)
  exact hm

/-! ## TempFileManager.detectChanges (utils/TempFileManager.js lines 153-216)

State: `fileHashes` is the tracking map (original path to stored hash/mtime),
`disk` gives each path's current stat: `none` models `fs.existsSync` false,
`some st` carries the current mtime and the md5 the streaming hash of the
current content would produce.  The embedding returns the `changes` object
together with the list of paths whose hash was recomputed
(`calculateFileHash` calls), so the fast-path claim is statable. -/

structure StoredInfo where
  hash : String
  mtime : Int
  tempPath : String
deriving Repr, DecidableEq

structure DiskStat where
  mtime : Int
  hash : String
deriving Repr, DecidableEq

structure ChangedEntry where
  path : String
  oldHash : String
  newHash : String
  oldMtime : Int
  newMtime : Int
deriving Repr, DecidableEq

structure Changes where
  hasChanges : Bool
  changedFiles : List ChangedEntry
  newFiles : List String
  deletedFiles : List String
  summary : String
deriving Repr, DecidableEq

/-- `sourcePaths || Array.from(this.fileHashes.keys())`. -/
def pathsToCheck (fileHashes : List (String × StoredInfo)) (sourcePaths : Option (List String)) :
    List String :=
  sourcePaths.getD (fileHashes.map (·.1))

/-- One iteration of the `for (const sourcePath of pathsToCheck)` loop. -/
def detectStep (fileHashes : List (String × StoredInfo)) (disk : String → Option DiskStat)
    (acc : Changes × List String) (p : String) : Changes × List String :=
  match disk p with
  | none =>
    ({ acc.1 with deletedFiles := acc.1.deletedFiles ++ [p], hasChanges := true }, acc.2)
  | some st =>
    match fileHashes.lookup p with
    | none =>
      ({ acc.1 with newFiles := acc.1.newFiles ++ [p], hasChanges := true }, acc.2)
    | some stored =>
      if st.mtime ≠ stored.mtime then
        let hashed := acc.2 ++ [p]
        if st.hash ≠ stored.hash then
          ({ acc.1 with
              changedFiles := acc.1.changedFiles ++
                [⟨p, stored.hash, st.hash, stored.mtime, st.mtime⟩],
              hasChanges := true }, hashed)
        else (acc.1, hashed)
      else acc

/-- Embedding of `TempFileManager.detectChanges`.  Second component: the paths
that were re-hashed. -/
def detectChanges (fileHashes : List (String × StoredInfo)) (disk : String → Option DiskStat)
    (sourcePaths : Option (List String)) : Changes × List String :=
  let init : Changes :=
    { hasChanges := false, changedFiles := [], newFiles := [], deletedFiles := [], summary := "" }
  let res := (pathsToCheck fileHashes sourcePaths).foldl (detectStep fileHashes disk) (init, [])
  let ch := res.1
  let total := ch.changedFiles.length + ch.newFiles.length + ch.deletedFiles.length
  let summary :=
    if 0 < total then
      toString total ++ " changes detected: " ++ toString ch.changedFiles.length ++
        " modified, " ++ toString ch.newFiles.length ++ " new, " ++
        toString ch.deletedFiles.length ++ " deleted"
    else "No changes detected"
  ({ ch with summary := summary }, res.2)

/-! Per-path deltas of one loop iteration, used to state the loop invariants. -/

def deletedDelta (disk : String → Option DiskStat) (p : String) : List String :=
  match disk p with
  | none => [p]
  | some _ => []

def newDelta (fileHashes : List (String × StoredInfo)) (disk : String → Option DiskStat)
    (p : String) : List String :=
  match disk p with
  | none => []
  | some _ =>
    match fileHashes.lookup p with
    | none => [p]
    | some _ => []

def changedDelta (fileHashes : List (String × StoredInfo)) (disk : String → Option DiskStat)
    (p : String) : List ChangedEntry :=
  match disk p, fileHashes.lookup p with
  | some st, some stored =>
    if st.mtime ≠ stored.mtime then
      if st.hash ≠ stored.hash then [⟨p, stored.hash, st.hash, stored.mtime, st.mtime⟩] else []
    else []
  | _, _ => []

def hashedDelta (fileHashes : List (String × StoredInfo)) (disk : String → Option DiskStat)
    (p : String) : List String :=
  match disk p, fileHashes.lookup p with
  | some st, some stored => if st.mtime ≠ stored.mtime then [p] else []
  | _, _ => []

theorem isEmpty_app {α : Type} (l1 l2 : List α) :
    (l1 ++ l2).isEmpty = (l1.isEmpty && l2.isEmpty) := by
  cases l1 <;> simp

theorem detectStep_eq (m : List (String × StoredInfo)) (disk : String → Option DiskStat)
    (acc : Changes × List String) (p : String) :
    detectStep m disk acc p =
      ({ hasChanges := acc.1.hasChanges || !(deletedDelta disk p).isEmpty ||
          !(newDelta m disk p).isEmpty || !(changedDelta m disk p).isEmpty,
         changedFiles := acc.1.changedFiles ++ changedDelta m disk p,
         newFiles := acc.1.newFiles ++ newDelta m disk p,
         deletedFiles := acc.1.deletedFiles ++ deletedDelta disk p,
         summary := acc.1.summary }, acc.2 ++ hashedDelta m disk p) := by
  unfold detectStep deletedDelta newDelta changedDelta hashedDelta
  rcases hd : disk p with _ | st <;> simp only [hd]
  · simp
  · rcases hl : m.lookup p with _ | stored <;> simp only [hl]
    · simp
    · by_cases hm : st.mtime ≠ stored.mtime
      · by_cases hh : st.hash ≠ stored.hash
        · simp [hm, hh]
        · simp [hm, hh]
      · simp [hm]

theorem detect_foldl_fields (m : List (String × StoredInfo)) (disk : String → Option DiskStat)
    (paths : List String) (acc : Changes × List String) :
    (paths.foldl (detectStep m disk) acc).1.deletedFiles =
      acc.1.deletedFiles ++ paths.flatMap (deletedDelta disk) ∧
    (paths.foldl (detectStep m disk) acc).1.newFiles =
      acc.1.newFiles ++ paths.flatMap (newDelta m disk) ∧
    (paths.foldl (detectStep m disk) acc).1.changedFiles =
      acc.1.changedFiles ++ paths.flatMap (changedDelta m disk) ∧
    (paths.foldl (detectStep m disk) acc).2 =
      acc.2 ++ paths.flatMap (hashedDelta m disk) ∧
    (paths.foldl (detectStep m disk) acc).1.hasChanges =
      (acc.1.hasChanges || !(paths.flatMap (deletedDelta disk)).isEmpty ||
        !(paths.flatMap (newDelta m disk)).isEmpty ||
        !(paths.flatMap (changedDelta m disk)).isEmpty) ∧
    (paths.foldl (detectStep m disk) acc).1.summary = acc.1.summary := by
  induction paths generalizing acc with
  | nil => simp
  | cons p ps ih =>
    simp only [List.foldl_cons, List.flatMap_cons]
    rw [detectStep_eq]
    obtain ⟨h1, h2, h3, h4, h5, h6⟩ := ih
      (({ hasChanges := acc.1.hasChanges || !(deletedDelta disk p).isEmpty ||
            !(newDelta m disk p).isEmpty || !(changedDelta m disk p).isEmpty,
          changedFiles := acc.1.changedFiles ++ changedDelta m disk p,
          newFiles := acc.1.newFiles ++ newDelta m disk p,
          deletedFiles := acc.1.deletedFiles ++ deletedDelta disk p,
          summary := acc.1.summary }, acc.2 ++ hashedDelta m disk p))
    refine ⟨?_, ?_, ?_, ?_, ?_, ?_⟩
    · rw [h1]; simp [List.append_assoc]
    · rw [h2]; simp [List.append_assoc]
    · rw [h3]; simp [List.append_assoc]
    · rw [h4]; simp [List.append_assoc]
    · rw [h5]
      simp only [isEmpty_app, Bool.not_and]
      cases acc.1.hasChanges <;>
        cases hb1 : (deletedDelta disk p).isEmpty <;>
        cases hb2 : (newDelta m disk p).isEmpty <;>
        cases hb3 : (changedDelta m disk p).isEmpty <;>
        cases hb4 : (ps.flatMap (deletedDelta disk)).isEmpty <;>
        cases hb5 : (ps.flatMap (newDelta m disk)).isEmpty <;>
        cases hb6 : (ps.flatMap (changedDelta m disk)).isEmpty <;> simp
    · rw [h6]

theorem mem_deletedDelta {disk : String → Option DiskStat} {q p : String} :
    q ∈ deletedDelta disk p ↔ q = p ∧ disk p = none := by
  unfold deletedDelta
  cases h : disk p <;> simp [h]

theorem mem_newDelta {m : List (String × StoredInfo)} {disk : String → Option DiskStat}
    {q p : String} :
    q ∈ newDelta m disk p ↔ q = p ∧ (∃ st, disk p = some st) ∧ m.lookup p = none := by
  unfold newDelta
  cases h : disk p
  · simp [h]
  · cases hl : m.lookup p <;> simp [h, hl]

theorem mem_changedDelta {m : List (String × StoredInfo)} {disk : String → Option DiskStat}
    {e : ChangedEntry} {p : String} :
    e ∈ changedDelta m disk p ↔
      ∃ st stored, disk p = some st ∧ m.lookup p = some stored ∧
        st.mtime ≠ stored.mtime ∧ st.hash ≠ stored.hash ∧
        e = ⟨p, stored.hash, st.hash, stored.mtime, st.mtime⟩ := by
  unfold changedDelta
  cases h : disk p
  · simp [h]
  · cases hl : m.lookup p
    · simp [h, hl]
    · rename_i st stored
      by_cases hm : st.mtime ≠ stored.mtime
      · by_cases hh : st.hash ≠ stored.hash
        · simp [h, hl, hm, hh]
        · simp [h, hl, hm, hh]
      · simp [h, hl, hm]

theorem mem_hashedDelta {m : List (String × StoredInfo)} {disk : String → Option DiskStat}
    {q p : String} :
    q ∈ hashedDelta m disk p ↔
      q = p ∧ ∃ st stored, disk p = some st ∧ m.lookup p = some stored ∧
        st.mtime ≠ stored.mtime := by
  unfold hashedDelta
  cases h : disk p
  · simp [h]
  · cases hl : m.lookup p
    · simp [h, hl]
    · rename_i st stored
      by_cases hm : st.mtime ≠ stored.mtime
      · simp [h, hl, hm]
      · simp [h, hl, hm]

theorem detectChanges_fields (m : List (String × StoredInfo)) (disk : String → Option DiskStat)
    (sourcePaths : Option (List String)) :
    (detectChanges m disk sourcePaths).1.deletedFiles =
      (pathsToCheck m sourcePaths).flatMap (deletedDelta disk) ∧
    (detectChanges m disk sourcePaths).1.newFiles =
      (pathsToCheck m sourcePaths).flatMap (newDelta m disk) ∧
    (detectChanges m disk sourcePaths).1.changedFiles =
      (pathsToCheck m sourcePaths).flatMap (changedDelta m disk) ∧
    (detectChanges m disk sourcePaths).2 =
      (pathsToCheck m sourcePaths).flatMap (hashedDelta m disk) ∧
    (detectChanges m disk sourcePaths).1.hasChanges =
      (!((pathsToCheck m sourcePaths).flatMap (deletedDelta disk)).isEmpty ||
        !((pathsToCheck m sourcePaths).flatMap (newDelta m disk)).isEmpty ||
        !((pathsToCheck m sourcePaths).flatMap (changedDelta m disk)).isEmpty) := by
  obtain ⟨h1, h2, h3, h4, h5, h6⟩ := detect_foldl_fields m disk (pathsToCheck m sourcePaths)
    ({ hasChanges := false, changedFiles := [], newFiles := [], deletedFiles := [],
       summary := "" }, [])
  unfold detectChanges
  dsimp only
  rw [h1, h2, h3, h4, h5]
  simp

theorem exists_lookup_of_mem_keys {m : List (String × StoredInfo)} {q : String}
    (h : q ∈ m.map Prod.fst) : ∃ v, m.lookup q = some v := by
  induction m with
  | nil => simp at h
  | cons x xs ih =>
    simp only [List.map_cons, List.mem_cons] at h
    by_cases he : q = x.1
    · have hb : (q == x.1) = true := beq_iff_eq.mpr he
      exact ⟨x.2, by simp [List.lookup, hb]⟩
    · rcases h with h | h
      · exact absurd h he
      · rcases ih h with ⟨v, hv⟩
        have hb : (q == x.1) = false := beq_eq_false_iff_ne.mpr he
        exact ⟨v, by simp [List.lookup, hb, hv]⟩

/-- C9: when `detectChanges` is called with no argument, the examined set is
exactly the keys of the tracking map, so `newFiles` is always empty: a path
can only be classified `new` when the caller passes an explicit list. -/
theorem C9_default_paths_no_new (m : List (String × StoredInfo))
    (disk : String → Option DiskStat) :
    pathsToCheck m none = m.map (·.1) ∧
    (detectChanges m disk none).1.newFiles = [] := by
  refine ⟨rfl, ?_⟩
  rw [(detectChanges_fields m disk none).2.1]
  rw [List.flatMap_eq_nil_iff]
  intro p hp
  obtain ⟨v, hv⟩ := exists_lookup_of_mem_keys hp
  unfold newDelta
  cases h : disk p <;> simp [h, hv]

/-- C4 (counterexample): the claim says a checked path with no tracking entry
appears in `newFiles`; but a checked path that is untracked and also missing
from disk is classified `deleted`, not `new` (the existence check runs first). -/
theorem C4_counterexample :
    ("x" : String) ∈ pathsToCheck [] (some ["x"]) ∧
    (([] : List (String × StoredInfo)).lookup "x") = none ∧
    (detectChanges [] (fun _ => none) (some ["x"])).1.newFiles = [] ∧
    (detectChanges [] (fun _ => none) (some ["x"])).1.deletedFiles = ["x"] :=
  ⟨by decide, rfl, rfl, rfl⟩

/-- C4 (amended): for every path checked by `detectChanges`: a tracked path
with matching mtime is skipped without recomputing its hash and is not
reported; a tracked path whose mtime differs but whose recomputed hash matches
is not reported in `changedFiles`; a tracked path whose recomputed hash
differs appears in `changedFiles`; a checked path missing from disk appears in
`deletedFiles`; a checked path *present on disk* with no tracking entry
appears in `newFiles`; and `hasChanges` is true exactly when one of the three
lists is non-empty. -/
theorem C4_detect_amended (m : List (String × StoredInfo)) (disk : String → Option DiskStat)
    (sourcePaths : Option (List String)) :
    (∀ p st stored, m.lookup p = some stored → disk p = some st → st.mtime = stored.mtime →
      p ∉ (detectChanges m disk sourcePaths).2 ∧
      (∀ e ∈ (detectChanges m disk sourcePaths).1.changedFiles, e.path ≠ p) ∧
      p ∉ (detectChanges m disk sourcePaths).1.newFiles ∧
      p ∉ (detectChanges m disk sourcePaths).1.deletedFiles) ∧
    (∀ p st stored, m.lookup p = some stored → disk p = some st → st.mtime ≠ stored.mtime →
      st.hash = stored.hash →
      (∀ e ∈ (detectChanges m disk sourcePaths).1.changedFiles, e.path ≠ p)) ∧
    (∀ p st stored, p ∈ pathsToCheck m sourcePaths → m.lookup p = some stored →
      disk p = some st → st.mtime ≠ stored.mtime → st.hash ≠ stored.hash →
      (⟨p, stored.hash, st.hash, stored.mtime, st.mtime⟩ : ChangedEntry) ∈
        (detectChanges m disk sourcePaths).1.changedFiles) ∧
    (∀ p, p ∈ pathsToCheck m sourcePaths → disk p = none →
      p ∈ (detectChanges m disk sourcePaths).1.deletedFiles) ∧
    (∀ p st, p ∈ pathsToCheck m sourcePaths → disk p = some st → m.lookup p = none →
      p ∈ (detectChanges m disk sourcePaths).1.newFiles) ∧
    ((detectChanges m disk sourcePaths).1.hasChanges = true ↔
      ((detectChanges m disk sourcePaths).1.changedFiles ≠ [] ∨
        (detectChanges m disk sourcePaths).1.newFiles ≠ [] ∨
        (detectChanges m disk sourcePaths).1.deletedFiles ≠ [])) := by
  obtain ⟨hdel, hnew, hchg, hhash, hhc⟩ := detectChanges_fields m disk sourcePaths
  refine ⟨?_, ?_, ?_, ?_, ?_, ?_⟩
  · intro p st stored hl hd hm
    refine ⟨?_, ?_, ?_, ?_⟩
    · rw [hhash]
      intro hmem
      rw [List.mem_flatMap] at hmem
      obtain ⟨q, _, hq⟩ := hmem
      obtain ⟨hqp, st', stored', hd', hl', hm'⟩ := mem_hashedDelta.mp hq
      subst hqp
      rw [hd] at hd'
      rw [hl] at hl'
      cases hd'
      cases hl'
      exact hm' hm
    · rw [hchg]
      intro e hmem hep
      rw [List.mem_flatMap] at hmem
      obtain ⟨q, _, hq⟩ := hmem
      obtain ⟨st', stored', hd', hl', hm', _, he⟩ := mem_changedDelta.mp hq
      rw [he] at hep
      simp only at hep
      subst hep
      rw [hd] at hd'
      rw [hl] at hl'
      cases hd'
      cases hl'
      exact hm' hm
    · rw [hnew]
      intro hmem
      rw [List.mem_flatMap] at hmem
      obtain ⟨q, _, hq⟩ := hmem
      obtain ⟨hqp, _, hl'⟩ := mem_newDelta.mp hq
      subst hqp
      rw [hl] at hl'
      cases hl'
    · rw [hdel]
      intro hmem
      rw [List.mem_flatMap] at hmem
      obtain ⟨q, _, hq⟩ := hmem
      obtain ⟨hqp, hd'⟩ := mem_deletedDelta.mp hq
      subst hqp
      rw [hd] at hd'
      cases hd'
  · intro p st stored hl hd hm hh
    rw [hchg]
    intro e hmem hep
    rw [List.mem_flatMap] at hmem
    obtain ⟨q, _, hq⟩ := hmem
    obtain ⟨st', stored', hd', hl', _, hh', he⟩ := mem_changedDelta.mp hq
    rw [he] at hep
    simp only at hep
    subst hep
    rw [hd] at hd'
    rw [hl] at hl'
    cases hd'
    cases hl'
    exact hh' hh
  · intro p st stored hp hl hd hm hh
    rw [hchg, List.mem_flatMap]
    exact ⟨p, hp, mem_changedDelta.mpr ⟨st, stored, hd, hl, hm, hh, rfl⟩⟩
  · intro p hp hd
    rw [hdel, List.mem_flatMap]
    exact ⟨p, hp, mem_deletedDelta.mpr ⟨rfl, hd⟩⟩
  · intro p st hp hd hl
    rw [hnew, List.mem_flatMap]
    exact ⟨p, hp, mem_newDelta.mpr ⟨rfl, ⟨st, hd⟩, hl⟩⟩
  · rw [hhc, hdel, hnew, hchg]
    cases h1 : ((pathsToCheck m sourcePaths).flatMap (deletedDelta disk)).isEmpty <;>
      cases h2 : ((pathsToCheck m sourcePaths).flatMap (newDelta m disk)).isEmpty <;>
      cases h3 : ((pathsToCheck m sourcePaths).flatMap (changedDelta m disk)).isEmpty <;>
      simp_all

/-- Closed witness for `C4_detect_amended`: a tracked file deleted from disk
lands in `deletedFiles`. -/
theorem C4_detect_amended_witness :
    ("x" : String) ∈ (detectChanges [] (fun _ => none) (some ["x", "y"])).1.deletedFiles :=
  (C4_detect_amended [] (fun _ => none) (some ["x", "y"])).2.2.2.1 "x" (by decide) rfl

/-! ## Scanner.performScan (src/Scanner.js lines 86-131)

The per-file loop body, with the `Project` methods the loop calls supplied by
an environment.  `Project.js` itself is not among the available sources:
`hasFatalErrors`, `loadJsonData`, `operator` and `isAlreadyProcessed` are
modelled from the spec and from the Scanner's own log line for the skip,
"already processed (result file exists)", as per-path observables.
`stagedCopyExists` / `sourceNewerThanStaged` are the observables the *claim*
talks about; the source code never consults them. -/

structure ScanEnv where
  /-- Modelled from the spec: `project.hasFatalErrors()` — a persisted fatal
  marker for this descriptor. -/
  hasFatalErrors : String → Bool
  /-- Modelled from the spec: `project.loadJsonData()` succeeded. -/
  loadOk : String → Bool
  /-- Modelled from the spec: `project.operator` after loading. -/
  operatorOf : String → String
  /-- Modelled from the spec: `project.isAlreadyProcessed()` — the Scanner
  logs this skip as "already processed (result file exists)". -/
  resultFileExists : String → Bool
  /-- Claim-side observable only: a staged copy of the source exists. -/
  stagedCopyExists : String → Bool
  /-- Claim-side observable only: source mtime is newer than the staged
  copy's. -/
  sourceNewerThanStaged : String → Bool

/-- One iteration of the inner `for (const jsonFile of jsonFiles)` loop of
`performScan`: returns the added project's path, or `none` when the `continue`
chain skips the file. -/
def processJsonFile (env : ScanEnv) (forceReprocess : Bool) (operatorFilter : Option String)
    (f : FileInfo) : Option String :=
  if env.hasFatalErrors f.fullPath then none
  else if env.loadOk f.fullPath then
    if (match operatorFilter with
        | some op => env.operatorOf f.fullPath != op
        | none => false) then none
    else if env.resultFileExists f.fullPath && !forceReprocess then none
    else some f.fullPath
  else none

/-- The amended skip policy in the claim's vocabulary: a discovered file
yields a ready project exactly when it carries no fatal marker, its JSON
loads, it passes the operator filter, and no result artifact exists yet
(unless force-reprocess is set). -/
def scanSkipPolicy (env : ScanEnv) (force : Bool) (filt : Option String) (path : String) : Bool :=
  !env.hasFatalErrors path && env.loadOk path &&
    (match filt with
     | some op => env.operatorOf path == op
     | none => true) &&
    (!env.resultFileExists path || force)

/-- Embedding of the `performScan` grouping + double loop: group the
discovered JSON files by project key, then process each file of each group,
collecting the projects pushed with `status = "ready"`. -/
def performScanLoop (env : ScanEnv) (forceReprocess : Bool) (operatorFilter : Option String)
    (files : List FileInfo) : List String :=
  (groupJsonFilesByProject files).foldl (fun acc g =>
    g.2.foldl (fun acc2 f =>
      match processJsonFile env forceReprocess operatorFilter f with
      | some p => acc2 ++ [p]
      | none => acc2) acc) []

/-- The re-staging condition as the claim states it: re-stage only if no
staged copy exists, or the source's modification time is newer than the
staged copy's, or the force-reprocess flag is set. -/
def claimRestageCondition (env : ScanEnv) (force : Bool) (path : String) : Bool :=
  !env.stagedCopyExists path || env.sourceNewerThanStaged path || force

theorem mem_addToGroups {groups : List (String × List FileInfo)} {x f : FileInfo} :
    (∃ g ∈ addToGroups groups x, f ∈ g.2) ↔ (∃ g ∈ groups, f ∈ g.2) ∨ f = x := by
  unfold addToGroups
  split
  · rename_i hany
    constructor
    · rintro ⟨g, hg, hf⟩
      obtain ⟨g0, hg0, hmap⟩ := List.mem_map.mp hg
      by_cases hc : g0.1 = x.projectName
      · rw [if_pos hc] at hmap
        subst hmap
        simp only at hf
        rcases List.mem_append.mp hf with h | h
        · exact Or.inl ⟨g0, hg0, h⟩
        · simp at h
          exact Or.inr h
      · rw [if_neg hc] at hmap
        subst hmap
        exact Or.inl ⟨g0, hg0, hf⟩
    · rintro (⟨g, hg, hf⟩ | hfx)
      · by_cases hc : g.1 = x.projectName
        · exact ⟨(g.1, g.2 ++ [x]), List.mem_map.mpr ⟨g, hg, by rw [if_pos hc]⟩,
            by simp [hf]⟩
        · exact ⟨g, List.mem_map.mpr ⟨g, hg, by rw [if_neg hc]⟩, hf⟩
      · subst hfx
        obtain ⟨g, hg, hgk⟩ := List.any_eq_true.mp hany
        have hc : g.1 = f.projectName := of_decide_eq_true hgk
        exact ⟨(g.1, g.2 ++ [f]), List.mem_map.mpr ⟨g, hg, by rw [if_pos hc]⟩, by simp⟩
  · constructor
    · rintro ⟨g, hg, hf⟩
      rcases List.mem_append.mp hg with h | h
      · exact Or.inl ⟨g, h, hf⟩
      · simp at h
        subst h
        simp at hf
        exact Or.inr hf
    · rintro (⟨g, hg, hf⟩ | hfx)
      · exact ⟨g, List.mem_append.mpr (Or.inl hg), hf⟩
      · subst hfx
        exact ⟨(f.projectName, [f]), by simp, by simp⟩

theorem mem_groupJsonFilesByProject (files : List FileInfo) (f : FileInfo) :
    (∃ g ∈ groupJsonFilesByProject files, f ∈ g.2) ↔ f ∈ files := by
  have main : ∀ init, (∃ g ∈ files.foldl addToGroups init, f ∈ g.2) ↔
      (∃ g ∈ init, f ∈ g.2) ∨ f ∈ files := by
    induction files with
    | nil => intro init; simp
    | cons x xs ih =>
      intro init
      simp only [List.foldl_cons]
      rw [ih (addToGroups init x), mem_addToGroups]
      simp only [List.mem_cons, or_assoc]
  have h := main []
  simpa using h

theorem mem_inner_foldl (env : ScanEnv) (force : Bool) (filt : Option String)
    (g2 : List FileInfo) (acc : List String) (x : String) :
    x ∈ g2.foldl (fun acc2 f =>
        match processJsonFile env force filt f with
        | some p => acc2 ++ [p]
        | none => acc2) acc ↔
      x ∈ acc ∨ ∃ f ∈ g2, processJsonFile env force filt f = some x := by
  induction g2 generalizing acc with
  | nil => simp
  | cons f fs ih =>
    simp only [List.foldl_cons]
    rw [ih]
    cases hp : processJsonFile env force filt f <;> simp only [hp]
    · constructor
      · rintro (h | ⟨f', hf', hpf⟩)
        · exact Or.inl h
        · exact Or.inr ⟨f', List.mem_cons_of_mem _ hf', hpf⟩
      · rintro (h | ⟨f', hf', hpf⟩)
        · exact Or.inl h
        · rcases List.mem_cons.mp hf' with he | hm
          · subst he
            rw [hp] at hpf
            cases hpf
          · exact Or.inr ⟨f', hm, hpf⟩
    · rename_i p
      constructor
      · rintro (h | ⟨f', hf', hpf⟩)
        · rcases List.mem_append.mp h with h | h
          · exact Or.inl h
          · simp at h
            subst h
            exact Or.inr ⟨f, List.mem_cons_self _ _, hp⟩
        · exact Or.inr ⟨f', List.mem_cons_of_mem _ hf', hpf⟩
      · rintro (h | ⟨f', hf', hpf⟩)
        · exact Or.inl (List.mem_append.mpr (Or.inl h))
        · rcases List.mem_cons.mp hf' with he | hm
          · subst he
            rw [hp] at hpf
            simp at hpf
            subst hpf
            exact Or.inl (by simp)
          · exact Or.inr ⟨f', hm, hpf⟩

theorem mem_performScanLoop (env : ScanEnv) (force : Bool) (filt : Option String)
    (files : List FileInfo) (x : String) :
    x ∈ performScanLoop env force filt files ↔
      ∃ f ∈ files, processJsonFile env force filt f = some x := by
  unfold performScanLoop
  have houter : ∀ (groups : List (String × List FileInfo)) (acc : List String),
      x ∈ groups.foldl (fun acc g =>
          g.2.foldl (fun acc2 f =>
            match processJsonFile env force filt f with
            | some p => acc2 ++ [p]
            | none => acc2) acc) acc ↔
        x ∈ acc ∨ ∃ g ∈ groups, ∃ f ∈ g.2, processJsonFile env force filt f = some x := by
    intro groups
    induction groups with
    | nil => intro acc; simp
    | cons g gs ih =>
      intro acc
      simp only [List.foldl_cons]
      rw [ih, mem_inner_foldl]
      simp only [or_assoc]
      constructor
      · rintro (h | ⟨f, hf, hpf⟩ | ⟨g', hg', f, hf, hpf⟩)
        · exact Or.inl h
        · exact Or.inr ⟨g, List.mem_cons_self _ _, f, hf, hpf⟩
        · exact Or.inr ⟨g', List.mem_cons_of_mem _ hg', f, hf, hpf⟩
      · rintro (h | ⟨g', hg', f, hf, hpf⟩)
        · exact Or.inl h
        · rcases List.mem_cons.mp hg' with he | hm
          · subst he
            exact Or.inr (Or.inl ⟨f, hf, hpf⟩)
          · exact Or.inr (Or.inr ⟨g', hm, f, hf, hpf⟩)
  rw [houter _ []]
  simp only [List.not_mem_nil, false_or]
  constructor
  · rintro ⟨g, hg, f, hf, hpf⟩
    exact ⟨f, (mem_groupJsonFilesByProject files f).mp ⟨g, hg, hf⟩, hpf⟩
  · rintro ⟨f, hf, hpf⟩
    obtain ⟨g, hg, hfg⟩ := (mem_groupJsonFilesByProject files f).mpr hf
    exact ⟨g, hg, f, hfg, hpf⟩

theorem processJsonFile_none_of_result (env : ScanEnv) (filt : Option String) (f : FileInfo)
    (hr : env.resultFileExists f.fullPath = true) :
    processJsonFile env false filt f = none := by
  unfold processJsonFile
  split
  · rfl
  · split
    · split
      · rfl
      · rw [if_pos (by simp [hr])]
    · rfl

theorem processJsonFile_some (env : ScanEnv) (force : Bool) (filt : Option String)
    (f : FileInfo) (x : String) (h : processJsonFile env force filt f = some x) :
    x = f.fullPath := by
  unfold processJsonFile at h
  split at h
  · cases h
  · split at h
    · split at h
      · cases h
      · split at h
        · cases h
        · exact (Option.some.injEq _ _ ▸ h).symm
    · cases h

theorem processJsonFile_isSome (env : ScanEnv) (force : Bool) (filt : Option String)
    (f : FileInfo) :
    (processJsonFile env force filt f).isSome = scanSkipPolicy env force filt f.fullPath := by
  unfold processJsonFile scanSkipPolicy
  cases hfat : env.hasFatalErrors f.fullPath
  · cases hload : env.loadOk f.fullPath
    · simp [hfat, hload]
    · rcases hfl : filt with _ | op
      · cases hres : env.resultFileExists f.fullPath <;> cases force <;>
          simp [hfat, hload, hres]
      · cases hmis : env.operatorOf f.fullPath == op
        · simp [hfat, hload, hmis, bne]
        · cases hres : env.resultFileExists f.fullPath <;> cases force <;>
            simp [hfat, hload, hmis, hres, bne]
  · simp [hfat]

def scanEnvCE : ScanEnv :=
  { hasFatalErrors := fun _ => false, loadOk := fun _ => true,
    operatorOf := fun _ => "op1", resultFileExists := fun _ => false,
    stagedCopyExists := fun _ => true, sourceNewerThanStaged := fun _ => false }

def fileInfoCE : FileInfo :=
  { fullPath := "/data/M1/W1234AB01A.json", fileName := "W1234AB01A.json",
    projectBase := "W1234AB01", projectName := "W1234AB01A", position := "A",
    directory := "/data/M1" }

/-- C6 (counterexample): the claim says a source file whose staged copy exists
and is up to date (mtime not newer) is skipped with no side effects when the
force flag is off.  In the state below the staged copy exists and the source
is not newer, yet `performScan` adds the project anyway: the code's skip is
keyed on a persisted result file, which is absent here — staged-copy mtimes
play no role in the source. -/
theorem C6_counterexample :
    claimRestageCondition scanEnvCE false fileInfoCE.fullPath = false ∧
    performScanLoop scanEnvCE false none [fileInfoCE] = ["/data/M1/W1234AB01A.json"] :=
  ⟨rfl, rfl⟩

/-- C6 (amended): a discovered JSON file yields a ready project exactly when
it has no fatal-error marker, its JSON loads, it passes the operator filter,
and no result file already exists (unless force-reprocess is set); in
particular, re-scanning a tree in which every discovered file already has a
persisted result, without the force flag, adds zero projects. -/
theorem C6_rescan_amended (env : ScanEnv) (force : Bool) (filt : Option String)
    (files : List FileInfo) :
    (∀ x, x ∈ performScanLoop env force filt files ↔
      ∃ f ∈ files, processJsonFile env force filt f = some x) ∧
    (∀ f : FileInfo,
      (processJsonFile env force filt f).isSome = scanSkipPolicy env force filt f.fullPath) ∧
    (∀ f x, processJsonFile env force filt f = some x → x = f.fullPath) ∧
    ((∀ f ∈ files, env.resultFileExists f.fullPath = true) → force = false →
      performScanLoop env force filt files = []) := by
  refine ⟨mem_performScanLoop env force filt files,
    processJsonFile_isSome env force filt,
    processJsonFile_some env force filt, ?_⟩
  intro hall hforce
  subst hforce
  rw [List.eq_nil_iff_forall_not_mem]
  intro x hx
  obtain ⟨f, hf, hpf⟩ := (mem_performScanLoop env false filt files x).mp hx
  rw [processJsonFile_none_of_result env filt f (hall f hf)] at hpf
  cases hpf

def scanEnvProcessed : ScanEnv :=
  { hasFatalErrors := fun _ => false, loadOk := fun _ => true,
    operatorOf := fun _ => "op1", resultFileExists := fun _ => true,
    stagedCopyExists := fun _ => true, sourceNewerThanStaged := fun _ => false }

/-- Closed witness for `C6_rescan_amended`: a second scan over a tree whose
only file already has a result artifact adds zero projects. -/
theorem C6_rescan_amended_witness :
    performScanLoop scanEnvProcessed false none [fileInfoCE] = [] :=
  (C6_rescan_amended scanEnvProcessed false none [fileInfoCE]).2.2.2
    (fun _ _ => rfl) rfl

/-! ## TempFileManager.cleanup / removeDirectory (utils/TempFileManager.js
lines 318-353)

The filesystem is a tree value; `removeDirectory(dirPath)` in the source
unlinks the files under `dirPath`, recurses into its subdirectories and
finally `rmdir`s `dirPath` itself — on a tree value this depth-first sweep
collapses to deleting the subtree rooted at the path, which `removeAt`
performs by walking the path.  `cleanup` guards the removal with
`fs.existsSync(sessionPath)` and then clears the three in-memory maps. -/

inductive FsObj where
  | file (content : String)
  | dir (entries : List (String × FsObj))

def findEntry (n : String) : List (String × FsObj) → Option FsObj
  | [] => none
  | (k, v) :: rest => if k = n then some v else findEntry n rest

def lookupFs : List String → FsObj → Option FsObj
  | [], o => some o
  | _ :: _, .file _ => none
  | n :: rest, .dir es =>
    match findEntry n es with
    | some child => lookupFs rest child
    | none => none

def removeAt : List String → FsObj → FsObj
  | _, .file c => .file c
  | [], .dir es => .dir es
  | [n], .dir es => .dir (es.filter (fun e => e.1 ≠ n))
  | n :: rest, .dir es =>
    .dir (es.map (fun e => if e.1 = n then (e.1, removeAt rest e.2) else e))

structure TFMState where
  sessionPath : List String
  fileHashes : List (String × StoredInfo)
  copyQueue : List (String × String)
  pathMapping : List (String × String)

/-- Embedding of `TempFileManager.cleanup`. -/
def cleanup (root : FsObj) (st : TFMState) : FsObj × TFMState :=
  let root' :=
    if (lookupFs st.sessionPath root).isSome then removeAt st.sessionPath root else root
  (root', { st with fileHashes := [], copyQueue := [], pathMapping := [] })

theorem findEntry_filter_ne (n : String) (es : List (String × FsObj)) :
    findEntry n (es.filter (fun e => e.1 ≠ n)) = none := by
  induction es with
  | nil => rfl
  | cons e rest ih =>
    obtain ⟨k, v⟩ := e
    by_cases hk : k = n
    · rw [List.filter_cons, if_neg (by simp [hk])]
      exact ih
    · rw [List.filter_cons, if_pos (by simp [hk])]
      simp only [findEntry]
      rw [if_neg hk]
      exact ih

theorem findEntry_filter_other {m n : String} (hmn : m ≠ n) (es : List (String × FsObj)) :
    findEntry m (es.filter (fun e => e.1 ≠ n)) = findEntry m es := by
  induction es with
  | nil => rfl
  | cons e rest ih =>
    obtain ⟨k, v⟩ := e
    by_cases hk : k = n
    · have hkm : ¬ k = m := fun h => hmn (h.symm.trans hk)
      rw [List.filter_cons, if_neg (by simp [hk]), ih]
      simp only [findEntry]
      rw [if_neg hkm]
    · rw [List.filter_cons, if_pos (by simp [hk])]
      simp only [findEntry]
      by_cases hkm : k = m
      · rw [if_pos hkm, if_pos hkm]
      · rw [if_neg hkm, if_neg hkm]
        exact ih

theorem findEntry_map_update (n : String) (g : FsObj → FsObj) (es : List (String × FsObj)) :
    findEntry n (es.map (fun e => if e.1 = n then (e.1, g e.2) else e)) =
      (findEntry n es).map g := by
  induction es with
  | nil => rfl
  | cons e rest ih =>
    obtain ⟨k, v⟩ := e
    simp only [List.map_cons]
    by_cases hk : k = n
    · rw [if_pos hk]
      simp only [findEntry]
      rw [if_pos hk, if_pos hk]
      rfl
    · rw [if_neg hk]
      simp only [findEntry]
      rw [if_neg hk, if_neg hk]
      exact ih

theorem findEntry_map_other {m n : String} (hmn : m ≠ n) (g : FsObj → FsObj)
    (es : List (String × FsObj)) :
    findEntry m (es.map (fun e => if e.1 = n then (e.1, g e.2) else e)) = findEntry m es := by
  induction es with
  | nil => rfl
  | cons e rest ih =>
    obtain ⟨k, v⟩ := e
    simp only [List.map_cons]
    by_cases hk : k = n
    · have hkm : ¬ k = m := fun h => hmn (h.symm.trans hk)
      rw [if_pos hk]
      simp only [findEntry]
      rw [if_neg hkm, if_neg hkm]
      exact ih
    · rw [if_neg hk]
      simp only [findEntry]
      by_cases hkm : k = m
      · rw [if_pos hkm, if_pos hkm]
      · rw [if_neg hkm, if_neg hkm]
        exact ih

theorem lookupFs_removeAt_self : ∀ (p : List String) (o : FsObj), p ≠ [] →
    lookupFs p (removeAt p o) = none := by
  intro p
  induction p with
  | nil => intro o h; exact absurd rfl h
  | cons n rest ih =>
    intro o _
    cases o with
    | file c => simp only [removeAt, lookupFs]
    | dir es =>
      cases rest with
      | nil =>
        show lookupFs [n] (.dir (es.filter (fun e => e.1 ≠ n))) = none
        simp only [lookupFs]
        rw [findEntry_filter_ne]
      | cons r rs =>
        show lookupFs (n :: r :: rs)
          (.dir (es.map (fun e => if e.1 = n then (e.1, removeAt (r :: rs) e.2) else e))) = none
        simp only [lookupFs, findEntry_map_update]
        cases hf : findEntry n es with
        | none => rfl
        | some child =>
          simp only [Option.map_some']
          exact ih child (by simp)

theorem lookupFs_removeAt_frame : ∀ (p q : List String) (o : FsObj),
    ¬ p <+: q → ¬ q <+: p → lookupFs q (removeAt p o) = lookupFs q o := by
  intro p
  induction p with
  | nil => intro q o hpq _; exact absurd (List.nil_prefix) hpq
  | cons n ps ih =>
    intro q o hpq hqp
    cases q with
    | nil => exact absurd (List.nil_prefix) hqp
    | cons m qs =>
      cases o with
      | file c => simp only [removeAt]
      | dir es =>
        by_cases hmn : m = n
        · subst hmn
          cases ps with
          | nil =>
            exact absurd (List.cons_prefix_cons.mpr ⟨rfl, List.nil_prefix⟩) hpq
          | cons r rs =>
            show lookupFs (m :: qs)
              (.dir (es.map (fun e => if e.1 = m then (e.1, removeAt (r :: rs) e.2) else e))) =
              lookupFs (m :: qs) (.dir es)
            simp only [lookupFs, findEntry_map_update]
            cases hf : findEntry m es with
            | none => rfl
            | some child =>
              simp only [Option.map_some']
              refine ih qs child ?_ ?_
              · intro h
                exact hpq (List.cons_prefix_cons.mpr ⟨rfl, h⟩)
              · intro h
                exact hqp (List.cons_prefix_cons.mpr ⟨rfl, h⟩)
        · cases ps with
          | nil =>
            show lookupFs (m :: qs) (.dir (es.filter (fun e => e.1 ≠ n))) =
              lookupFs (m :: qs) (.dir es)
            simp only [lookupFs, findEntry_filter_other hmn]
          | cons r rs =>
            show lookupFs (m :: qs)
              (.dir (es.map (fun e => if e.1 = n then (e.1, removeAt (r :: rs) e.2) else e))) =
              lookupFs (m :: qs) (.dir es)
            simp only [lookupFs, findEntry_map_other hmn]

theorem lookupFs_removeAt_ancestor : ∀ (p q : List String) (o : FsObj),
    q <+: p → q ≠ p → (lookupFs q (removeAt p o)).isSome = (lookupFs q o).isSome := by
  intro p
  induction p with
  | nil =>
    intro q o hq hne
    exact absurd (List.prefix_nil.mp hq) hne
  | cons n ps ih =>
    intro q o hq hne
    cases q with
    | nil => cases o <;> rfl
    | cons m qs =>
      obtain ⟨hm, hqs⟩ := List.cons_prefix_cons.mp hq
      subst hm
      cases o with
      | file c => simp only [removeAt]
      | dir es =>
        cases ps with
        | nil =>
          have : qs = [] := List.prefix_nil.mp hqs
          subst this
          exact absurd rfl hne
        | cons r rs =>
          show (lookupFs (m :: qs)
            (.dir (es.map (fun e => if e.1 = m then (e.1, removeAt (r :: rs) e.2) else e)))).isSome =
            (lookupFs (m :: qs) (.dir es)).isSome
          simp only [lookupFs, findEntry_map_update]
          cases hf : findEntry m es with
          | none => rfl
          | some child =>
            simp only [Option.map_some']
            exact ih qs child hqs (fun h => hne (by rw [h]))

/-- C8: `cleanup()` empties the hash map, the copy queue and the path mapping,
removes the entire session directory, and touches nothing outside
`sessionPath`: every path that does not extend `sessionPath` keeps its
existence status, and every path unrelated to `sessionPath` (neither ancestor
nor descendant) resolves to exactly the same object as before. -/
theorem C8_cleanup (root : FsObj) (st : TFMState) :
    (cleanup root st).2.fileHashes = [] ∧
    (cleanup root st).2.copyQueue = [] ∧
    (cleanup root st).2.pathMapping = [] ∧
    (st.sessionPath ≠ [] → lookupFs st.sessionPath (cleanup root st).1 = none) ∧
    (∀ q, ¬ st.sessionPath <+: q →
      (lookupFs q (cleanup root st).1).isSome = (lookupFs q root).isSome) ∧
    (∀ q, ¬ st.sessionPath <+: q → ¬ q <+: st.sessionPath →
      lookupFs q (cleanup root st).1 = lookupFs q root) := by
  refine ⟨rfl, rfl, rfl, ?_, ?_, ?_⟩
  · intro hne
    unfold cleanup
    dsimp only
    split
    · exact lookupFs_removeAt_self st.sessionPath root hne
    · rename_i hex
      simpa using hex
  · intro q hq
    unfold cleanup
    dsimp only
    split
    · by_cases hqp : q <+: st.sessionPath
      · have hne : q ≠ st.sessionPath := fun h => hq (h ▸ List.prefix_refl q)
        exact lookupFs_removeAt_ancestor st.sessionPath q root hqp hne
      · rw [lookupFs_removeAt_frame st.sessionPath q root hq hqp]
    · rfl
  · intro q hq hqp
    unfold cleanup
    dsimp only
    split
    · exact lookupFs_removeAt_frame st.sessionPath q root hq hqp
    · rfl

/-- Closed witness for `C8_cleanup`: removing a concrete session directory
leaves it gone while a sibling file keeps its content. -/
theorem C8_cleanup_witness :
    lookupFs ["tmp", "jsonscanner", "session_1_ab"]
      (cleanup
        (.dir [("tmp", .dir [("jsonscanner",
          .dir [("session_1_ab", .dir [("W1234AB01A.json", .file "data")]),
                ("keep.txt", .file "keep")])])])
        { sessionPath := ["tmp", "jsonscanner", "session_1_ab"],
          fileHashes := [], copyQueue := [], pathMapping := [] }).1 = none :=
  (C8_cleanup
    (.dir [("tmp", .dir [("jsonscanner",
      .dir [("session_1_ab", .dir [("W1234AB01A.json", .file "data")]),
            ("keep.txt", .file "keep")])])])
    { sessionPath := ["tmp", "jsonscanner", "session_1_ab"],
      fileHashes := [], copyQueue := [], pathMapping := [] }).2.2.2.1 (by decide)

/-! ## TempFileManager.cleanupOldSessions (utils/TempFileManager.js
lines 371-400)

The shared temp root is the list of its direct entries (the sweep only ever
reads `readdirSync(tempBasePath)`, so only direct children are in scope).
`stat` is the `fs.statSync` oracle for an entry's mtime; returning
`Except.error` models a thrown filesystem error, which the source's
surrounding `try`/`catch` turns into a logged warning that aborts the rest of
the sweep without propagating.  Before each removal the source constructs a
fresh `TempFileManager`, whose constructor creates a new session directory
under the root: the fresh ids consumed are a parameter. -/

def strStartsWith (s pre : String) : Bool := pre.data.isPrefixOf s.data

def maxAgeMs : Int := 24 * 60 * 60 * 1000

/-- The `for (const session of sessions)` loop of `cleanupOldSessions`,
threading the current entries of the temp root. -/
def sweepGo (now : Int) (stat : String → Except String Int) :
    List String → List String → List (String × FsObj) → List (String × FsObj)
  | [], _, es => es
  | s :: rest, freshIds, es =>
    if strStartsWith s "session_" then
      match stat s with
      | .error _ => es
      | .ok mtime =>
        if now - mtime > maxAgeMs then
          let es1 := match freshIds with
            | [] => es
            | fid :: _ => if (findEntry fid es).isSome then es else es ++ [(fid, FsObj.dir [])]
          sweepGo now stat rest freshIds.tail (es1.filter (fun e => e.1 ≠ s))
        else sweepGo now stat rest freshIds es
    else sweepGo now stat rest freshIds es

/-- Embedding of the static `TempFileManager.cleanupOldSessions`; `none`
models a missing temp base directory (the early return). -/
def cleanupOldSessions (now : Int) (stat : String → Except String Int) (freshIds : List String)
    (root : Option (List (String × FsObj))) : Option (List (String × FsObj)) :=
  match root with
  | none => none
  | some es => some (sweepGo now stat (es.map (·.1)) freshIds es)

theorem sweepGo_keeps (now : Int) (stat : String → Except String Int) :
    ∀ (sessions freshIds : List String) (es : List (String × FsObj)) (name : String) (o : FsObj),
      (name, o) ∈ es →
      ¬(strStartsWith name "session_" = true ∧
        ∃ mt, stat name = Except.ok mt ∧ now - mt > maxAgeMs) →
      (name, o) ∈ sweepGo now stat sessions freshIds es := by
  intro sessions
  induction sessions with
  | nil =>
    intro freshIds es name o hmem _
    simpa [sweepGo] using hmem
  | cons s rest ih =>
    intro freshIds es name o hmem hng
    simp only [sweepGo]
    cases hss : strStartsWith s "session_"
    · rw [if_neg (by simp)]
      exact ih freshIds es name o hmem hng
    · rw [if_pos rfl]
      cases hst : stat s with
      | error e => exact hmem
      | ok mt =>
        dsimp only
        by_cases hold : now - mt > maxAgeMs
        · rw [if_pos hold]
          have hne : name ≠ s := fun h => hng (by subst h; exact ⟨hss, mt, hst, hold⟩)
          apply ih
          · rw [List.mem_filter]
            refine ⟨?_, by simpa using hne⟩
            cases freshIds with
            | nil => exact hmem
            | cons fid _ =>
              dsimp only
              split
              · exact hmem
              · exact List.mem_append.mpr (Or.inl hmem)
          · exact hng
        · rw [if_neg hold]
          exact ih freshIds es name o hmem hng

theorem sweepGo_error_stat (now : Int) (e : String) :
    ∀ (sessions freshIds : List String) (es : List (String × FsObj)),
      sweepGo now (fun _ => Except.error e) sessions freshIds es = es := by
  intro sessions
  induction sessions with
  | nil => intro _ _; simp [sweepGo]
  | cons s rest ih =>
    intro freshIds es
    simp only [sweepGo]
    cases hss : strStartsWith s "session_"
    · rw [if_neg (by simp)]
      exact ih freshIds es
    · rw [if_pos rfl]

/-- C10: the old-session sweep deletes only direct entries of the temp root
whose names start with `"session_"` and whose stat reports a last-modified
time more than 24 hours in the past; every other pre-existing entry survives
with its contents intact; a filesystem error during the sweep aborts it
without propagating (with an always-failing stat the root is returned
unchanged); and a missing temp root is a no-op. -/
theorem C10_old_session_sweep (now : Int) (stat : String → Except String Int)
    (freshIds : List String) (es : List (String × FsObj)) :
    (∀ name o, (name, o) ∈ es →
      ¬(strStartsWith name "session_" = true ∧
        ∃ mt, stat name = Except.ok mt ∧ now - mt > maxAgeMs) →
      (name, o) ∈ sweepGo now stat (es.map (·.1)) freshIds es) ∧
    (∀ name o, (name, o) ∈ es →
      (name, o) ∉ sweepGo now stat (es.map (·.1)) freshIds es →
      strStartsWith name "session_" = true ∧
        ∃ mt, stat name = Except.ok mt ∧ now - mt > maxAgeMs) ∧
    (∀ e, cleanupOldSessions now (fun _ => Except.error e) freshIds (some es) = some es) ∧
    cleanupOldSessions now stat freshIds none = none := by
  refine ⟨fun name o hmem hng => sweepGo_keeps now stat _ freshIds es name o hmem hng,
    ?_, ?_, rfl⟩
  · intro name o hmem hnot
    by_contra hng
    exact hnot (sweepGo_keeps now stat _ freshIds es name o hmem hng)
  · intro e
    unfold cleanupOldSessions
    dsimp only
    rw [sweepGo_error_stat]

/-- Closed witness for `C10_old_session_sweep`: a non-session entry of the
temp root survives a sweep that deletes an expired session directory. -/
theorem C10_old_session_sweep_witness :
    ("results", FsObj.file "r") ∈
      sweepGo (maxAgeMs + 1)
        (fun n => if n = "session_old" then Except.ok 0 else Except.ok (maxAgeMs + 1))
        ([("session_old", FsObj.dir []), ("results", FsObj.file "r")].map (·.1))
        ["session_new"]
        [("session_old", FsObj.dir []), ("results", FsObj.file "r")] :=
  (C10_old_session_sweep (maxAgeMs + 1)
      (fun n => if n = "session_old" then Except.ok 0 else Except.ok (maxAgeMs + 1))
      ["session_new"]
      [("session_old", FsObj.dir []), ("results", FsObj.file "r")]).1
    "results" (FsObj.file "r") (by simp)
    (fun h => absurd h.1 (by decide))

/-! ## JSON.parse and Analyzer.validateAndFixJson (src/Analyzer.js lines 21-84)

`JSON.parse` is embedded as a fuel-indexed recursive-descent parser for the
strict JSON grammar (objects, arrays, strings with escapes, numbers, the
three literals; whitespace is space/tab/LF/CR; trailing commas and raw
control characters in strings are rejected).  Numbers are kept as their
lexeme (the IEEE double value is irrelevant to every claim).  The mutual
recursion value/members/elements is expressed as one function over a mode
tag, recursing on fuel; `jsonParse` supplies fuel ample for its input. -/

inductive Json where
  | null
  | bool (b : Bool)
  | num (lit : String)
  | str (s : String)
  | arr (elems : List Json)
  | obj (fields : List (String × Json))
deriving Repr

def isJsonWs (c : Char) : Bool := c = ' ' || c = '\t' || c = '\n' || c = '\r'

def skipWs (cs : List Char) : List Char := cs.dropWhile isJsonWs

def isHexDigit (c : Char) : Bool :=
  ('0' ≤ c && c ≤ '9') || ('a' ≤ c && c ≤ 'f') || ('A' ≤ c && c ≤ 'F')

def hexVal (c : Char) : Nat :=
  if '0' ≤ c && c ≤ '9' then c.toNat - '0'.toNat
  else if 'a' ≤ c && c ≤ 'f' then c.toNat - 'a'.toNat + 10
  else if 'A' ≤ c && c ≤ 'F' then c.toNat - 'A'.toNat + 10
  else 0

def parseStringBody : List Char → Option (List Char × List Char)
  | [] => none
  | c :: rest =>
    if c = '"' then some ([], rest)
    else if c = '\\' then
      match rest with
      | [] => none
      | e :: rest2 =>
        if e = '"' then (parseStringBody rest2).map (fun p => ('"' :: p.1, p.2))
        else if e = '\\' then (parseStringBody rest2).map (fun p => ('\\' :: p.1, p.2))
        else if e = '/' then (parseStringBody rest2).map (fun p => ('/' :: p.1, p.2))
        else if e = 'b' then (parseStringBody rest2).map (fun p => ('\x08' :: p.1, p.2))
        else if e = 'f' then (parseStringBody rest2).map (fun p => ('\x0C' :: p.1, p.2))
        else if e = 'n' then (parseStringBody rest2).map (fun p => ('\n' :: p.1, p.2))
        else if e = 'r' then (parseStringBody rest2).map (fun p => ('\r' :: p.1, p.2))
        else if e = 't' then (parseStringBody rest2).map (fun p => ('\t' :: p.1, p.2))
        else if e = 'u' then
          match rest2 with
          | h1 :: h2 :: h3 :: h4 :: rest3 =>
            if isHexDigit h1 && isHexDigit h2 && isHexDigit h3 && isHexDigit h4 then
              (parseStringBody rest3).map (fun p =>
                (Char.ofNat (hexVal h1 * 4096 + hexVal h2 * 256 + hexVal h3 * 16 + hexVal h4)
                  :: p.1, p.2))
            else none
          | _ => none
        else none
    else if c.toNat < 0x20 then none
    else (parseStringBody rest).map (fun p => (c :: p.1, p.2))

def parseFracPart (cs : List Char) : Option (List Char × List Char) :=
  match cs with
  | '.' :: r =>
    let ds := r.takeWhile isDigitChar
    if ds.isEmpty then none else some ('.' :: ds, r.dropWhile isDigitChar)
  | _ => some ([], cs)

def parseExpPart (cs : List Char) : Option (List Char × List Char) :=
  match cs with
  | e :: r =>
    if e = 'e' || e = 'E' then
      let sr : List Char × List Char :=
        match r with
        | '+' :: rr => (['+'], rr)
        | '-' :: rr => (['-'], rr)
        | _ => ([], r)
      let ds := sr.2.takeWhile isDigitChar
      if ds.isEmpty then none else some (e :: sr.1 ++ ds, sr.2.dropWhile isDigitChar)
    else some ([], cs)
  | [] => some ([], [])

def parseNumber (cs : List Char) : Option (List Char × List Char) :=
  let sr : List Char × List Char :=
    match cs with
    | '-' :: r => (['-'], r)
    | _ => ([], cs)
  match sr.2 with
  | c :: r =>
    let ir : Option (List Char × List Char) :=
      if c = '0' then some (['0'], r)
      else if isDigitChar c then some (c :: r.takeWhile isDigitChar, r.dropWhile isDigitChar)
      else none
    match ir with
    | none => none
    | some (ip, r1) =>
      match parseFracPart r1 with
      | none => none
      | some (fp, r2) =>
        match parseExpPart r2 with
        | none => none
        | some (ep, r3) => some (sr.1 ++ ip ++ fp ++ ep, r3)
  | [] => none

inductive PMode where
  | value
  | membersStart
  | members (acc : List (String × Json))
  | elementsStart
  | elements (acc : List Json)

def parseStep : Nat → PMode → List Char → Option (Json × List Char)
  | 0, _, _ => none
  | fuel + 1, .value, cs =>
    let cs := skipWs cs
    match cs with
    | [] => none
    | c :: rest =>
      if c = '{' then parseStep fuel .membersStart rest
      else if c = '[' then parseStep fuel .elementsStart rest
      else if c = '"' then (parseStringBody rest).map (fun p => (Json.str ⟨p.1⟩, p.2))
      else if "true".data.isPrefixOf cs then some (Json.bool true, cs.drop 4)
      else if "false".data.isPrefixOf cs then some (Json.bool false, cs.drop 5)
      else if "null".data.isPrefixOf cs then some (Json.null, cs.drop 4)
      else (parseNumber cs).map (fun p => (Json.num ⟨p.1⟩, p.2))
  | fuel + 1, .membersStart, cs =>
    match skipWs cs with
    | '}' :: r => some (Json.obj [], r)
    | cs1 => parseStep fuel (.members []) cs1
  | fuel + 1, .members acc, cs =>
    match skipWs cs with
    | '"' :: rest =>
      match parseStringBody rest with
      | some (k, r1) =>
        match skipWs r1 with
        | ':' :: r3 =>
          match parseStep fuel .value r3 with
          | some (v, r4) =>
            match skipWs r4 with
            | ',' :: r6 => parseStep fuel (.members (acc ++ [(⟨k⟩, v)])) r6
            | '}' :: r6 => some (Json.obj (acc ++ [(⟨k⟩, v)]), r6)
            | _ => none
          | none => none
        | _ => none
      | none => none
    | _ => none
  | fuel + 1, .elementsStart, cs =>
    match skipWs cs with
    | ']' :: r => some (Json.arr [], r)
    | cs1 => parseStep fuel (.elements []) cs1
  | fuel + 1, .elements acc, cs =>
    match parseStep fuel .value cs with
    | some (v, r) =>
      match skipWs r with
      | ',' :: r2 => parseStep fuel (.elements (acc ++ [v])) r2
      | ']' :: r2 => some (Json.arr (acc ++ [v]), r2)
      | _ => none
    | none => none

/-- Embedding of `JSON.parse`: parse one value, then require only whitespace
to remain. -/
def jsonParse (s : String) : Option Json :=
  match parseStep (4 * s.data.length + 8) .value s.data with
  | some (v, rest) => if (skipWs rest).isEmpty then some v else none
  | none => none

/-! Analyzer fix-ups (src/Analyzer.js lines 66-70). -/

/-- JavaScript `\s` for the characters that can occur here (ASCII whitespace
plus NBSP and the BOM; the remaining Unicode space separators are omitted as
they cannot appear in the byte-oriented inputs this code handles). -/
def isJsWsRegex (c : Char) : Bool :=
  c = ' ' || c = '\t' || c = '\n' || c = '\r' || c = '\x0b' || c = '\x0c' ||
    c = ' ' || c = '﻿'

theorem dropWhile_length_le {p : Char → Bool} (l : List Char) :
    (l.dropWhile p).length ≤ l.length := by
  induction l with
  | nil => simp
  | cons x xs ih =>
    by_cases h : p x
    · simp only [List.dropWhile, h, List.length_cons]
      omega
    · simp [List.dropWhile, h]

/-- `content.replace(/,\s*([}\x5d])/g, "$1")`: drop a comma standing before a
closing brace/bracket (possibly across whitespace), scanning left to right and
resuming after each replaced bracket, exactly like the regex engine. -/
def fixTCGo : Nat → List Char → List Char
  | _, [] => []
  | 0, cs => cs
  | fuel + 1, c :: rest =>
    if c = ',' then
      match rest.dropWhile isJsWsRegex with
      | b :: rest2 =>
        if b = '}' || b = ']' then b :: fixTCGo fuel rest2
        else c :: fixTCGo fuel rest
      | [] => c :: fixTCGo fuel rest
    else c :: fixTCGo fuel rest

def fixTrailingCommas (cs : List Char) : List Char := fixTCGo cs.length cs

/-- `content.replace(/[\u0000-\u0019]+/g, "")`: remove the control characters
up to U+0019 (note the source stops at 0x19, not 0x1F). -/
def removeControlChars (cs : List Char) : List Char :=
  cs.filter (fun c => !(c.toNat ≤ 0x19))

/-- Modelled from the spec: `Project.sanitizeJsonContent` lives in
`Project.js`, which is not among the available sources.  The spec: before
parsing, "replace known-invalid numeric literals (e.g. unquoted not-a-number
tokens) with `null`"; transcribed as the global textual replacement of `NaN`
by `null`. -/
def replaceNaN : List Char → List Char
  | 'N' :: 'a' :: 'N' :: rest => 'n' :: 'u' :: 'l' :: 'l' :: replaceNaN rest
  | c :: rest => c :: replaceNaN rest
  | [] => []

def sanitizeJsonContent (content : String) : String := ⟨replaceNaN content.data⟩

/-- Embedding of `Analyzer.validateAndFixJson`: `none` stands for the `null`
return (unreadable or empty file, or JSON that resists the repair ladder). -/
def validateAndFixJson (content : Option String) : Option Json :=
  match content with
  | none => none
  | some raw =>
    if raw = "" then none
    else
      let sanitized := sanitizeJsonContent raw
      match jsonParse sanitized with
      | some v => some v
      | none =>
        jsonParse ⟨removeControlChars (fixTrailingCommas sanitized.data)⟩

structure AnalyzerProject where
  jsonFilePath : Option String
  /-- Modelled from the spec: `project.getFixedFilePath()` (in the missing
  `Project.js`) — the path of the "fixed" artifact. -/
  fixedPath : String
  status : String
deriving Repr, DecidableEq

/-- Embedding of `Analyzer.analyzeProject`; the second component is the
artifact written by `writeJsonFile(fixedPath, fixedData)`, if any. -/
def analyzeProject (readFile : String → Option String) (p : AnalyzerProject) :
    AnalyzerProject × Option (String × Json) :=
  match p.jsonFilePath with
  | none => (p, none)
  | some path =>
    match validateAndFixJson (readFile path) with
    | some data => ({ p with status := "analyzed" }, some (p.fixedPath, data))
    | none => ({ p with status := "analysis_failed" }, none)

/-- C2: `analyzeProject` applies the strictly ordered repair ladder: the
sanitized text (unquoted `NaN` replaced by `null`) is parsed directly; on
failure the trailing-comma and control-character fixes are applied and the
parse retried; if the text still fails, status becomes `analysis_failed` and
no fixed artifact is written; on success at either stage the parsed structure
is written to the fixed artifact path and status becomes `analyzed`; a project
with no JSON file path is returned with its status unchanged.  Concretely,
`{"a":1, "b": NaN,}` repairs to the object with `a = 1, b = null`, while an
unterminated string resists the whole ladder. -/
theorem C2_repair_ladder :
    (∀ readFile p, p.jsonFilePath = none → analyzeProject readFile p = (p, none)) ∧
    (∀ readFile p path v, p.jsonFilePath = some path →
      validateAndFixJson (readFile path) = some v →
      analyzeProject readFile p =
        ({ p with status := "analyzed" }, some (p.fixedPath, v))) ∧
    (∀ readFile p path, p.jsonFilePath = some path →
      validateAndFixJson (readFile path) = none →
      analyzeProject readFile p = ({ p with status := "analysis_failed" }, none)) ∧
    (∀ raw v, raw ≠ "" → jsonParse (sanitizeJsonContent raw) = some v →
      validateAndFixJson (some raw) = some v) ∧
    (∀ raw, raw ≠ "" → jsonParse (sanitizeJsonContent raw) = none →
      validateAndFixJson (some raw) =
        jsonParse ⟨removeControlChars (fixTrailingCommas (sanitizeJsonContent raw).data)⟩) ∧
    jsonParse (sanitizeJsonContent "\x7b\"a\":1, \"b\": NaN,\x7d") = none ∧
    validateAndFixJson (some "\x7b\"a\":1, \"b\": NaN,\x7d") =
      some (Json.obj [("a", Json.num "1"), ("b", Json.null)]) ∧
    validateAndFixJson (some "\x7b\"a\": \"unterminated") = none ∧
    analyzeProject (fun _ => some "\x7b\"a\": \"unterminated")
        { jsonFilePath := some "W1234AB01A.json", fixedPath := "W1234AB01A_BRK_fixed.json",
          status := "ready" } =
      ({ jsonFilePath := some "W1234AB01A.json", fixedPath := "W1234AB01A_BRK_fixed.json",
         status := "analysis_failed" }, none) := by
  refine ⟨?_, ?_, ?_, ?_, ?_, rfl, rfl, rfl, rfl⟩
  · intro readFile p hp
    simp only [analyzeProject, hp]
  · intro readFile p path v hp hv
    simp only [analyzeProject, hp, hv]
  · intro readFile p path hp hv
    simp only [analyzeProject, hp, hv]
  · intro raw v hraw hv
    simp only [validateAndFixJson, if_neg hraw, hv]
  · intro raw hraw hv
    simp only [validateAndFixJson, if_neg hraw, hv]

/-- Closed witness for `C2_repair_ladder`: the repair of the claim's example
input, obtained through the ladder theorem itself. -/
theorem C2_repair_ladder_witness :
    validateAndFixJson (some "\x7b\"a\":1, \"b\": null\x7d") =
      some (Json.obj [("a", Json.num "1"), ("b", Json.null)]) :=
  C2_repair_ladder.2.2.2.1 "\x7b\"a\":1, \"b\": null\x7d"
    (Json.obj [("a", Json.num "1"), ("b", Json.null)]) (by decide) rfl

/-! ## RuleEngine.executeRules / executeRule (src/RuleEngine.js lines 115-219)

A rule callable is one JavaScript function invoked under three argument
shapes; each shape is one field returning `Except` (a throw or a value).
Thrown values carry a message and a stack.  Rule return values are opaque
JavaScript values, represented by `Json`. -/

structure JsErr where
  message : String
  stack : String
deriving Repr, DecidableEq

structure CompoundJob where
  operations : List Json
deriving Repr

structure RuleProject where
  name : String
  compoundJobs : List (String × CompoundJob)
  tools : List (String × Json)
deriving Repr

/-- Embedding of `RuleEngine.extractOperationsArray`: flatten every compound
job's operations in order (the `Array.isArray` guard is vacuous in the typed
model). -/
def extractOperationsArray (p : RuleProject) : List Json :=
  p.compoundJobs.foldl (fun acc cj => acc ++ cj.2.operations) []

structure Rule where
  callProject : RuleProject → Except JsErr Json
  callOperations : List Json → Except JsErr Json
  callFull : RuleProject → List CompoundJob → List Json → Except JsErr Json

/-- The `new Error(...)` thrown when all three invocation shapes fail; the
stack text of a fresh Error is abstracted as `"Error: " ++ message`. -/
def mkAllFailedError (e1 : JsErr) : JsErr :=
  { message := "Rule execution failed with all parameter combinations: " ++ e1.message,
    stack := "Error: Rule execution failed with all parameter combinations: " ++ e1.message }

/-- Embedding of `RuleEngine.executeRule`: project shape first, then the
flattened operations array, then `(project, compoundJobsArray, toolsArray)`;
if all three throw, throw the combined error. -/
def executeRule (p : RuleProject) (r : Rule) : Except JsErr Json :=
  match r.callProject p with
  | .ok v => .ok v
  | .error e1 =>
    match r.callOperations (extractOperationsArray p) with
    | .ok v => .ok v
    | .error _ =>
      match r.callFull p (p.compoundJobs.map (·.2)) (p.tools.map (·.2)) with
      | .ok v => .ok v
      | .error _ => .error (mkAllFailedError e1)

structure RuleConfig where
  logic : Option (RuleProject → Except JsErr Bool)
  description : Option String
  failureType : Option String

def dataProperties : List String := ["processedAt", "summary", "rules"]

/-- Embedding of `RuleEngine.shouldRunRule`: no configuration or no logic
means the rule is skipped; a throwing predicate also means skipped. -/
def shouldRunRule (p : RuleProject) (ruleName : String) (ruleConfig : Option RuleConfig) :
    Bool :=
  match ruleConfig with
  | none => false
  | some rc =>
    match rc.logic with
    | some f =>
      match f p with
      | .ok b => b
      | .error _ => false
    | none =>
      if dataProperties.contains ruleName then false
      else false

inductive REntry where
  | nullEntry
  | value (v : Json)
  | errorEntry (message stack : String)
deriving Repr

/-- Embedding of `RuleEngine.executeRules`: the loop over the loaded rules,
accumulating the `results` object (insertion-ordered) and the two counters.
The per-rule `try`/`catch` turns a thrown combined error into that rule's
`error: true` entry (note `rulesRun++` sits after the call, so a throwing
rule increments neither counter). -/
def executeRules (cfgRules : List (String × RuleConfig)) (rules : List (String × Rule))
    (p : RuleProject) : List (String × REntry) × Nat × Nat :=
  rules.foldl (fun acc nr =>
    if shouldRunRule p nr.1 (cfgRules.lookup nr.1) then
      match executeRule p nr.2 with
      | .ok v => (acc.1 ++ [(nr.1, .value v)], acc.2.1 + 1, acc.2.2)
      | .error e => (acc.1 ++ [(nr.1, .errorEntry e.message e.stack)], acc.2.1, acc.2.2)
    else (acc.1 ++ [(nr.1, .nullEntry)], acc.2.1, acc.2.2 + 1)) ([], 0, 0)

/-- The claim's per-rule contract, written independently of the loop: a rule
that is applicable is invoked with the Project first, then retried with the
flattened operations, then with the triple; if all three shapes throw its
entry is an error object carrying a message and stack; an inapplicable rule's
entry is `null`. -/
def entryFor (cfgRules : List (String × RuleConfig)) (p : RuleProject) (ruleName : String)
    (r : Rule) : REntry :=
  if shouldRunRule p ruleName (cfgRules.lookup ruleName) then
    match r.callProject p with
    | .ok v => .value v
    | .error e1 =>
      match r.callOperations (extractOperationsArray p) with
      | .ok v => .value v
      | .error _ =>
        match r.callFull p (p.compoundJobs.map (·.2)) (p.tools.map (·.2)) with
        | .ok v => .value v
        | .error _ =>
          .errorEntry (mkAllFailedError e1).message (mkAllFailedError e1).stack
  else .nullEntry

theorem entryFor_eq_executeRule (cfg : List (String × RuleConfig)) (p : RuleProject)
    (name : String) (r : Rule) (h : shouldRunRule p name (cfg.lookup name) = true) :
    entryFor cfg p name r =
      match executeRule p r with
      | .ok v => .value v
      | .error e => .errorEntry e.message e.stack := by
  unfold entryFor executeRule
  rw [if_pos h]
  cases r.callProject p with
  | ok v => rfl
  | error e1 =>
    cases r.callOperations (extractOperationsArray p) with
    | ok v => rfl
    | error e2 =>
      cases r.callFull p (p.compoundJobs.map (·.2)) (p.tools.map (·.2)) with
      | ok v => rfl
      | error e3 => rfl

theorem executeRules_foldl_results (cfg : List (String × RuleConfig)) (p : RuleProject) :
    ∀ (rules : List (String × Rule)) (acc : List (String × REntry) × Nat × Nat),
      (rules.foldl (fun acc nr =>
        if shouldRunRule p nr.1 (cfg.lookup nr.1) then
          match executeRule p nr.2 with
          | .ok v => (acc.1 ++ [(nr.1, REntry.value v)], acc.2.1 + 1, acc.2.2)
          | .error e => (acc.1 ++ [(nr.1, REntry.errorEntry e.message e.stack)], acc.2.1, acc.2.2)
        else (acc.1 ++ [(nr.1, REntry.nullEntry)], acc.2.1, acc.2.2 + 1)) acc).1 =
      acc.1 ++ rules.map (fun nr => (nr.1, entryFor cfg p nr.1 nr.2)) := by
  intro rules
  induction rules with
  | nil => intro acc; simp
  | cons nr rest ih =>
    intro acc
    simp only [List.foldl_cons, List.map_cons]
    cases hrun : shouldRunRule p nr.1 (cfg.lookup nr.1)
    · rw [if_neg (by simp [hrun])]
      rw [ih]
      have : entryFor cfg p nr.1 nr.2 = .nullEntry := by
        unfold entryFor
        rw [if_neg (by simp [hrun])]
      rw [this]
      simp
    · rw [if_pos rfl]
      rw [entryFor_eq_executeRule cfg p nr.1 nr.2 hrun]
      cases hex : executeRule p nr.2 with
      | ok v =>
        rw [ih]
        simp
      | error e =>
        rw [ih]
        simp

/-- C1: `executeRules` produces exactly one entry per loaded rule, in order,
each determined only by that rule and the project (so one rule's failure
cannot abort the batch or disturb another rule's entry); an applicable rule
is invoked with the Project first, retried with the flattened operations
array, then with `(project, compoundJobsArray, toolsArray)`; if all three
shapes throw, its entry is an error object with a message and stack; an
inapplicable rule's entry is `null`.  The spec's three-rule scenario (the
second throws under every shape) is evaluated concretely. -/
theorem C1_rule_fault_isolation (cfg : List (String × RuleConfig))
    (rules : List (String × Rule)) (p : RuleProject) :
    (executeRules cfg rules p).1 =
      rules.map (fun nr => (nr.1, entryFor cfg p nr.1 nr.2)) ∧
    (executeRules cfg rules p).1.map Prod.fst = rules.map Prod.fst ∧
    (∀ name r, shouldRunRule p name (cfg.lookup name) = true →
      (∀ v, r.callProject p = .ok v → entryFor cfg p name r = .value v) ∧
      (∀ e1 v, r.callProject p = .error e1 →
        r.callOperations (extractOperationsArray p) = .ok v →
        entryFor cfg p name r = .value v) ∧
      (∀ e1 e2 v, r.callProject p = .error e1 →
        r.callOperations (extractOperationsArray p) = .error e2 →
        r.callFull p (p.compoundJobs.map (·.2)) (p.tools.map (·.2)) = .ok v →
        entryFor cfg p name r = .value v) ∧
      (∀ e1 e2 e3, r.callProject p = .error e1 →
        r.callOperations (extractOperationsArray p) = .error e2 →
        r.callFull p (p.compoundJobs.map (·.2)) (p.tools.map (·.2)) = .error e3 →
        entryFor cfg p name r =
          .errorEntry (mkAllFailedError e1).message (mkAllFailedError e1).stack)) ∧
    (∀ name r, shouldRunRule p name (cfg.lookup name) = false →
      entryFor cfg p name r = .nullEntry) := by
  refine ⟨executeRules_foldl_results cfg p rules ([], 0, 0), ?_, ?_, ?_⟩
  · unfold executeRules
    rw [executeRules_foldl_results cfg p rules ([], 0, 0)]
    simp
  · intro name r hrun
    refine ⟨?_, ?_, ?_, ?_⟩
    · intro v hv
      unfold entryFor
      rw [if_pos hrun, hv]
    · intro e1 v he hv
      unfold entryFor
      rw [if_pos hrun, he, hv]
    · intro e1 e2 v he1 he2 hv
      unfold entryFor
      rw [if_pos hrun, he1, he2, hv]
    · intro e1 e2 e3 he1 he2 he3
      unfold entryFor
      rw [if_pos hrun, he1, he2, he3]
  · intro name r hrun
    unfold entryFor
    rw [if_neg (by simp [hrun])]

def ruleCfgAlways : RuleConfig :=
  { logic := some (fun _ => Except.ok true), description := none, failureType := none }

def ruleProjectW : RuleProject :=
  { name := "W1234AB01A", compoundJobs := [("prog1.h", ⟨[Json.null]⟩)], tools := [] }

def ruleBoom : Rule :=
  { callProject := fun _ => Except.error ⟨"boom", "Error: boom"⟩,
    callOperations := fun _ => Except.error ⟨"boom-ops", "Error: boom-ops"⟩,
    callFull := fun _ _ _ => Except.error ⟨"boom-full", "Error: boom-full"⟩ }

/-- Closed witness for `C1_rule_fault_isolation`: the spec's three-rule
scenario — the second rule throws under all three shapes, yet all three rules
receive entries and the second's is the error object. -/
theorem C1_rule_fault_isolation_witness :
    (executeRules
        [("r1", ruleCfgAlways), ("r2", ruleCfgAlways), ("r3", ruleCfgAlways)]
        [("r1", { callProject := fun _ => Except.ok (Json.str "ok1"),
                  callOperations := fun _ => Except.error ⟨"u", "v"⟩,
                  callFull := fun _ _ _ => Except.error ⟨"u", "v"⟩ }),
         ("r2", ruleBoom),
         ("r3", { callProject := fun _ => Except.ok (Json.str "ok3"),
                  callOperations := fun _ => Except.error ⟨"u", "v"⟩,
                  callFull := fun _ _ _ => Except.error ⟨"u", "v"⟩ })]
        ruleProjectW).1 =
      [("r1", REntry.value (Json.str "ok1")),
       ("r2", REntry.errorEntry
         "Rule execution failed with all parameter combinations: boom"
         "Error: Rule execution failed with all parameter combinations: boom"),
       ("r3", REntry.value (Json.str "ok3"))] := by
  rw [(C1_rule_fault_isolation
    [("r1", ruleCfgAlways), ("r2", ruleCfgAlways), ("r3", ruleCfgAlways)]
    [("r1", { callProject := fun _ => Except.ok (Json.str "ok1"),
              callOperations := fun _ => Except.error ⟨"u", "v"⟩,
              callFull := fun _ _ _ => Except.error ⟨"u", "v"⟩ }),
     ("r2", ruleBoom),
     ("r3", { callProject := fun _ => Except.ok (Json.str "ok3"),
              callOperations := fun _ => Except.error ⟨"u", "v"⟩,
              callFull := fun _ _ _ => Except.error ⟨"u", "v"⟩ })]
    ruleProjectW).1]
  rfl

/-! ## Executor.processProject (src/Executor.js lines 117-171)

The `try` block's outcome is an oracle: `Except.ok s` is the project status
after `analyzeProject` returned normally (per `Analyzer.js` that is
`"analyzed"`, `"analysis_failed"`, or the status left unchanged), and
`Except.error msg` is an exception thrown inside the block with message
`msg`.  `saveProjectResults` (src/Results.js lines 18-44) catches internally:
it returns the written artifact or nothing, and never throws; `saveWriteOk`
models the `writeFileSync` outcome.  `setAnalysisResults` /
`getAnalysisResults` / `markAsFatalError` live in the missing `Project.js`
and are modelled from the spec as a plain field, and a fatal-marker flag. -/

structure ExecProject where
  name : String
  status : String
  resultPath : Option String
  analysisResults : Json
  fatalMarked : Bool

structure ProcEnv where
  analyzeOutcome : Except String String
  saveWriteOk : Bool

/-- Embedding of `Results.saveProjectResults`: returns the artifact written,
or `none` when no result path can be produced or the write fails (both
caught and logged in the source, never thrown). -/
def saveProjectResults (env : ProcEnv) (p : ExecProject) (results : Json) :
    Option (String × Json) :=
  match p.resultPath with
  | none => none
  | some rp => if env.saveWriteOk then some (rp, results) else none

/-- `err.message.includes("JSON") || includes("parse") || includes("corrupt")`. -/
def messageIndicatesFatal (msg : String) : Bool :=
  containsSub "JSON".data msg.data || containsSub "parse".data msg.data ||
    containsSub "corrupt".data msg.data

/-- Embedding of `Executor.processProject`; second component: the result
artifacts persisted during the call. -/
def processProject (env : ProcEnv) (p : ExecProject) : ExecProject × List (String × Json) :=
  match env.analyzeOutcome with
  | .error msg =>
    if messageIndicatesFatal msg then
      ({ p with status := "fatal_error", fatalMarked := true }, [])
    else
      let p1 := { p with status := "failed", analysisResults := Json.obj [] }
      (p1, (saveProjectResults env p1 p1.analysisResults).toList)
  | .ok newStatus =>
    let p1 := { p with status := newStatus }
    if newStatus = "analysis_failed" then
      let p2 := { p1 with analysisResults := Json.obj [] }
      (p2, (saveProjectResults env p2 p2.analysisResults).toList)
    else if newStatus = "fatal_error" then (p1, [])
    else
      ({ p1 with status := "completed" },
        (saveProjectResults env p1 p1.analysisResults).toList)

/-- C3 (counterexample): an exception whose message indicates JSON corruption
drives the project to `fatal_error`, and in that case *zero* result artifacts
are persisted — refuting "in every case the project yields exactly one result
artifact". -/
theorem C3_counterexample :
    (processProject
        { analyzeOutcome := Except.error "Unexpected token in JSON at position 0",
          saveWriteOk := true }
        { name := "W1234AB01A", status := "ready",
          resultPath := some "W1234AB01A_BRK_result.json",
          analysisResults := Json.null, fatalMarked := false }).1.status = "fatal_error" ∧
    (processProject
        { analyzeOutcome := Except.error "Unexpected token in JSON at position 0",
          saveWriteOk := true }
        { name := "W1234AB01A", status := "ready",
          resultPath := some "W1234AB01A_BRK_result.json",
          analysisResults := Json.null, fatalMarked := false }).2 = [] :=
  ⟨rfl, rfl⟩

/-- C3 (amended): `processProject` is total (no failure escapes the scan
cycle); analysis failure persists exactly one minimal (empty) result; an
exception whose message indicates JSON/parse/corruption sets
`status = fatal_error`, marks the project, and persists *no* result artifact;
any other exception sets `status = failed` and persists exactly one empty
result; a normally-analyzed project completes with exactly one result
artifact; and no run ever persists more than one artifact. -/
theorem C3_process_amended (env : ProcEnv) (p : ExecProject) (rp : String) :
    (env.analyzeOutcome = Except.ok "analysis_failed" → p.resultPath = some rp →
      env.saveWriteOk = true →
      (processProject env p).1.status = "analysis_failed" ∧
      (processProject env p).2 = [(rp, Json.obj [])]) ∧
    (∀ msg, env.analyzeOutcome = Except.error msg → messageIndicatesFatal msg = true →
      (processProject env p).1.status = "fatal_error" ∧
      (processProject env p).1.fatalMarked = true ∧
      (processProject env p).2 = []) ∧
    (∀ msg, env.analyzeOutcome = Except.error msg → messageIndicatesFatal msg = false →
      p.resultPath = some rp → env.saveWriteOk = true →
      (processProject env p).1.status = "failed" ∧
      (processProject env p).2 = [(rp, Json.obj [])]) ∧
    (∀ s, env.analyzeOutcome = Except.ok s → s ≠ "analysis_failed" → s ≠ "fatal_error" →
      p.resultPath = some rp → env.saveWriteOk = true →
      (processProject env p).1.status = "completed" ∧
      (processProject env p).2 = [(rp, p.analysisResults)]) ∧
    (processProject env p).2.length ≤ 1 := by
  refine ⟨?_, ?_, ?_, ?_, ?_⟩
  · intro ho hrp hw
    unfold processProject
    rw [ho]
    simp [saveProjectResults, hrp, hw]
  · intro msg ho hf
    unfold processProject
    rw [ho]
    simp [hf]
  · intro msg ho hf hrp hw
    unfold processProject
    rw [ho]
    simp [hf, saveProjectResults, hrp, hw]
  · intro s ho hs1 hs2 hrp hw
    unfold processProject
    rw [ho]
    simp [hs1, hs2, saveProjectResults, hrp, hw]
  · unfold processProject
    cases env.analyzeOutcome with
    | error msg =>
      by_cases hf : messageIndicatesFatal msg = true
      · simp [hf]
      · simp only [Bool.not_eq_true] at hf
        simp [hf, saveProjectResults]
        cases p.resultPath with
        | none => simp
        | some rp => cases env.saveWriteOk <;> simp
    | ok s =>
      by_cases h1 : s = "analysis_failed"
      · simp [h1, saveProjectResults]
        cases p.resultPath with
        | none => simp
        | some rp => cases env.saveWriteOk <;> simp
      · by_cases h2 : s = "fatal_error"
        · simp [h1, h2]
        · simp [h1, h2, saveProjectResults]
          cases p.resultPath with
          | none => simp
          | some rp => cases env.saveWriteOk <;> simp

/-- Closed witness for `C3_process_amended`: an analysis failure persists
exactly one empty result artifact. -/
theorem C3_process_amended_witness :
    (processProject { analyzeOutcome := Except.ok "analysis_failed", saveWriteOk := true }
      { name := "W1234AB01A", status := "ready", resultPath := some "r.json",
        analysisResults := Json.null, fatalMarked := false }).2 = [("r.json", Json.obj [])] :=
  ((C3_process_amended
    { analyzeOutcome := Except.ok "analysis_failed", saveWriteOk := true }
    { name := "W1234AB01A", status := "ready", resultPath := some "r.json",
      analysisResults := Json.null, fatalMarked := false } "r.json").1 rfl rfl rfl).2

end BRK
